import Mathlib

/-!
Shallow embedding of the workflow-extraction core of the repository
(`src/Procedures_schema/graph_builder.py`, `src/Procedures_schema/path_enumeration.py`,
and the inline copies in `src/Procedures_schema/extract_workflow.py`), together with
proofs settling the frozen claims about it.

Modelling conventions:
* Python strings are Lean `String`s.  Python's `str.lower`/`str.isalnum` are
  Unicode-aware while Lean's `Char.toLower`/`Char.isAlphanum` are ASCII-only; all
  concrete inputs used below are ASCII, where the two agree.
* Python dicts that are only ever iterated/looked up are insertion-ordered
  association lists (`List (key × value)`); `dict.get` is `List.lookup`.
* `rid_to_id[x]` (an unguarded dict access in Python, which would raise `KeyError`
  when `x` is absent) is modelled as the total `ridId`, returning the raw key as a
  default; every use below is either guarded by the same membership test as the
  source or proved to be on a present key.
* Unbounded loops (the id-collision `while` loop, the BFS `while queue` loops, the
  recursive DFS) are given an explicit fuel argument.  At each call site the fuel
  is instantiated with a bound that the loop can never exhaust (the BFS pops at
  most `|initial queue| + |edges|` elements; the DFS strictly decreases
  `Σ (MAX_LOOP_ITERATIONS - visit_count)` over the finite id universe), so the
  fuel-exhausted branches mirror the source's own early-return guards.
-/

namespace Workflow

/-! ### Generic list helpers (Python idioms) -/

/-- `list(dict.fromkeys(l))`: deduplicate keeping the first occurrence, in order. -/
def firstDedupAux {α : Type} [DecidableEq α] : List α → List α → List α
  | [], _ => []
  | x :: xs, seen => if x ∈ seen then firstDedupAux xs seen else x :: firstDedupAux xs (x :: seen)

def firstDedup {α : Type} [DecidableEq α] (l : List α) : List α := firstDedupAux l []

/-- A `for` loop that appends `f x` for each item and breaks as soon as the
accumulator has reached `cap` elements (checked after each extension, like the
source's `if len(all_paths) >= MAX_PATHS: break`). -/
def accumBreak {α β : Type} (cap : Nat) (f : α → List β) : List α → List β → List β
  | [], acc => acc
  | x :: xs, acc =>
    let acc2 := acc ++ f x
    if cap ≤ acc2.length then acc2 else accumBreak cap f xs acc2

/-- `itertools.product(*lists)`: Cartesian product, leftmost factor varying slowest. -/
def pyProduct {α : Type} : List (List α) → List (List α)
  | [] => [[]]
  | l :: ls => l.flatMap (fun x => (pyProduct ls).map (fun c => x :: c))

def pyPermsAux {α : Type} : Nat → List α → List (List α)
  | 0, _ => [[]]
  | n + 1, l =>
    (List.range l.length).flatMap (fun i =>
      match l.get? i with
      | some x => (pyPermsAux n (l.eraseIdx i)).map (fun p => x :: p)
      | none => [])

/-- `itertools.permutations(l)` in its enumeration order (lexicographic by position). -/
def pyPermutations {α : Type} (l : List α) : List (List α) := pyPermsAux l.length l

/-- `itertools.combinations(l, r)` in its enumeration order (positional, lexicographic). -/
def pyCombinations {α : Type} : List α → Nat → List (List α)
  | _, 0 => [[]]
  | [], _ + 1 => []
  | x :: xs, r + 1 => (pyCombinations xs r).map (fun c => x :: c) ++ pyCombinations xs (r + 1)

/-! ### Data model (`build_graph`) -/

/-- The node kinds occurring in the dataset (`type` field of a `step_nodes` entry). -/
inductive NType : Type where
  | Activity : NType
  | StartNode : NType
  | EndNode : NType
  | XOR : NType
  | AND : NType
  | OR : NType
deriving DecidableEq

/-- One `step_nodes` entry: `resourceId` is kept as the key of the association list. -/
structure Node : Type where
  type : NType
  text : String
  agent : String
deriving DecidableEq

/-- One `SequenceFlow` entry. -/
structure Edge : Type where
  src : String
  tgt : String
  cond : String
deriving DecidableEq

/-- The node dict: insertion-ordered `resourceId → node`. -/
abbrev NodeMap : Type := List (String × Node)

/-- `outgoing[rid]`, built by scanning `SequenceFlow` in order (`build_graph`). -/
def outgoingOf (edges : List Edge) (rid : String) : List (String × String) :=
  (edges.filter (fun e => decide (e.src = rid))).map (fun e => (e.tgt, e.cond))

/-- `incoming[rid]`, built by scanning `SequenceFlow` in order (`build_graph`). -/
def incomingOf (edges : List Edge) (rid : String) : List (String × String) :=
  (edges.filter (fun e => decide (e.tgt = rid))).map (fun e => (e.src, e.cond))

/-! ### Identifier synthesis (`make_action_id`, both copies) -/

/-- Python's `str.strip()`: drop leading and trailing whitespace.  (Lean's own
`String.trim` is extensionally the same but is defined by well-founded recursion
over byte positions; this charwise version is structurally recursive.) -/
def pyStrip (t : String) : String :=
  ⟨((t.data.dropWhile Char.isWhitespace).reverse.dropWhile Char.isWhitespace).reverse⟩

/-- The slug pipeline shared by both `make_action_id` implementations:
`text.strip().lower()`, then `.replace(' ', '_').replace("'", "")`, then keep
only alphanumeric characters and underscores.  Python's `.lower()` maps each
character to lower case; it is modelled charwise. -/
def slug (t : String) : String :=
  ⟨((((pyStrip t).data.map Char.toLower).map (fun c => if c = ' ' then '_' else c)).filter
      (fun c => decide (c ≠ Char.ofNat 39))).filter
      (fun c => c.isAlphanum || decide (c = '_'))⟩

/-- The collision `while` loop: try `base`, then `base_2`, `base_3`, … until a
candidate is not in `seen`.  `fuel` is instantiated with `seen.length + 1`, which
the loop cannot exhaust (the candidates are pairwise distinct strings). -/
def resolveCollision (base : String) (seen : List String) : Nat → String → Nat → String
  | 0, cand, _ => cand
  | fuel + 1, cand, counter =>
    if cand ∈ seen then
      resolveCollision base seen fuel (base ++ "_" ++ Nat.repr counter) (counter + 1)
    else cand

/-- `graph_builder.make_action_id` (no empty-text fallback). -/
def gbMakeActionId (t : String) (seen : List String) : String :=
  resolveCollision (slug t) seen (seen.length + 1) (slug t) 2

/-- `extract_workflow.make_action_id`: identical except that empty/whitespace-only
text short-circuits to the literal `"unnamed_action"` (without touching `seen`). -/
def ewMakeActionId (t : String) (seen : List String) : String :=
  if pyStrip t = "" then "unnamed_action" else gbMakeActionId t seen

/-! ### `build_rid_to_id` and gateway ids -/

def actionableTypes : List NType := [NType.Activity, NType.StartNode, NType.EndNode]

/-- `node['type'] in ACTIONABLE_TYPES and node['NodeText'].strip()`. -/
def isActionable (nd : Node) : Bool :=
  decide (nd.type ∈ actionableTypes) && decide (pyStrip nd.text ≠ "")

/-- `node['type'] in ('XOR', 'AND', 'OR')`. -/
def isGatewayKind (nd : Node) : Bool :=
  decide (nd.type = NType.XOR) || decide (nd.type = NType.AND) || decide (nd.type = NType.OR)

/-- `node['type'].lower()` on the dataset's type strings. -/
def typeLower : NType → String
  | NType.Activity => "activity"
  | NType.StartNode => "startnode"
  | NType.EndNode => "endnode"
  | NType.XOR => "xor"
  | NType.AND => "and"
  | NType.OR => "or"

/-- `make_gateway_id`: `"gateway_" + type.lower() + "_" + list(nodes.keys()).index(rid)`. -/
def makeGatewayId (nodes : NodeMap) (rid : String) (nd : Node) : String :=
  "gateway_" ++ typeLower nd.type ++ "_" ++ Nat.repr ((nodes.map Prod.fst).indexOf rid)

def buildRidToIdAux : NodeMap → List String → List (String × String)
  | [], _ => []
  | (rid, nd) :: rest, seen =>
    if isActionable nd then
      let aid := gbMakeActionId nd.text seen
      (rid, aid) :: buildRidToIdAux rest (aid :: seen)
    else buildRidToIdAux rest seen

/-- `build_rid_to_id`: action ids for every actionable node, in node order, with a
per-record `seen_ids` set threaded through `make_action_id`. -/
def buildRidToId (nodes : NodeMap) : List (String × String) := buildRidToIdAux nodes []

/-- `rid_to_id[rid]` (unguarded Python dict access; see the module comment). -/
def ridId (r2i : List (String × String)) (rid : String) : String :=
  (r2i.lookup rid).getD rid

/-! ### `extract_actions` (graph_builder; extract_workflow inlines the same loop) -/

structure Action : Type where
  id : String
  name : String
  actor : Option String
  predecessors : List String
  successors : List String
  postconditions : List String
deriving DecidableEq

/-- One iteration of the predecessor-collection loop body: which referent (if any)
an incoming edge from `src` contributes. -/
def predecessorRef (nodes : NodeMap) (r2i : List (String × String)) (src : String) :
    Option String :=
  match nodes.lookup src with
  | none => none
  | some sn =>
    if isActionable sn then some (ridId r2i src)
    else if isGatewayKind sn then some (makeGatewayId nodes src sn)
    else if sn.type = NType.StartNode then some "start"
    else none

/-- One iteration of the successor-collection loop body (no `"start"` sentinel;
unnamed EndNodes contribute nothing). -/
def successorRef (nodes : NodeMap) (r2i : List (String × String)) (tgt : String) :
    Option String :=
  match nodes.lookup tgt with
  | none => none
  | some tn =>
    if isActionable tn then some (ridId r2i tgt)
    else if isGatewayKind tn then some (makeGatewayId nodes tgt tn)
    else none

def extractAction (nodes : NodeMap) (edges : List Edge) (r2i : List (String × String))
    (rid : String) (nd : Node) : Action :=
  { id := ridId r2i rid
    name := pyStrip nd.text
    actor := if pyStrip nd.agent = "" then none else some (pyStrip nd.agent)
    predecessors :=
      firstDedup ((incomingOf edges rid).filterMap (fun p => predecessorRef nodes r2i p.1))
    successors :=
      firstDedup ((outgoingOf edges rid).filterMap (fun p => successorRef nodes r2i p.1))
    postconditions := [ridId r2i rid ++ "_done"] }

/-- `extract_actions`: one `Action` per actionable node, in node order. -/
def extractActions (nodes : NodeMap) (edges : List Edge)
    (r2i : List (String × String)) : List Action :=
  nodes.filterMap (fun p =>
    if isActionable p.2 then some (extractAction nodes edges r2i p.1 p.2) else none)

/-! ### `extract_gateways` (graph_builder) and the extract_workflow variant -/

structure Branch : Type where
  next : Option String
  condition : Option String
deriving DecidableEq

structure Gateway : Type where
  id : String
  type : String
  role : String
  incoming_from : List String
  branches : List Branch
  actor : Option String
deriving DecidableEq

/-- Branch-target resolution in `graph_builder.extract_gateways`.  `none` = the edge
is skipped (missing node); `some v` = a branch is emitted with `next = v`.
Unnamed EndNode targets yield `some none` (an explicit terminal branch); the final
`else` is Python's `next_id = tgt` fallback, which leaks the raw resource id. -/
def gbBranchRef (nodes : NodeMap) (r2i : List (String × String)) (tgt : String) :
    Option (Option String) :=
  match nodes.lookup tgt with
  | none => none
  | some tn =>
    if (r2i.lookup tgt).isSome then some (some (ridId r2i tgt))
    else if isGatewayKind tn then some (some (makeGatewayId nodes tgt tn))
    else if tn.type = NType.EndNode then some none
    else some (some tgt)

/-- Branch construction for one outgoing edge `(tgt, cond)` of a gateway. -/
def gbBranch (nodes : NodeMap) (r2i : List (String × String)) (tc : String × String) :
    Option Branch :=
  match gbBranchRef nodes r2i tc.1 with
  | none => none
  | some nx => some { next := nx, condition := if pyStrip tc.2 = "" then none else some (pyStrip tc.2) }

/-- Branch-target resolution of the inline extractor in `extract_workflow.py`:
identical except that an EndNode target makes the whole branch be skipped
(`continue`) instead of emitting `next = null`. -/
def ewBranchRef (nodes : NodeMap) (r2i : List (String × String)) (tgt : String) :
    Option (Option String) :=
  match nodes.lookup tgt with
  | none => none
  | some tn =>
    if (r2i.lookup tgt).isSome then some (some (ridId r2i tgt))
    else if isGatewayKind tn then some (some (makeGatewayId nodes tgt tn))
    else if tn.type = NType.EndNode then none
    else some (some tgt)

def ewBranch (nodes : NodeMap) (r2i : List (String × String)) (tc : String × String) :
    Option Branch :=
  match ewBranchRef nodes r2i tc.1 with
  | none => none
  | some nx => some { next := nx, condition := if pyStrip tc.2 = "" then none else some (pyStrip tc.2) }

/-- The `branches` list the `extract_workflow.py` extractor emits for a gateway. -/
def ewGatewayBranches (nodes : NodeMap) (edges : List Edge)
    (r2i : List (String × String)) (rid : String) : List Branch :=
  (outgoingOf edges rid).filterMap (ewBranch nodes r2i)

/-- `incoming_from` entry for one incoming edge source. -/
def incomingFromRef (nodes : NodeMap) (r2i : List (String × String)) (src : String) :
    Option String :=
  match nodes.lookup src with
  | none => none
  | some sn =>
    if (r2i.lookup src).isSome then some (ridId r2i src)
    else if isGatewayKind sn then some (makeGatewayId nodes src sn)
    else none

/-- Role from raw in/out degree. -/
def gatewayRole (inDeg outDeg : Nat) : String :=
  if inDeg ≤ 1 ∧ outDeg > 1 then "split"
  else if inDeg > 1 ∧ outDeg ≤ 1 then "merge"
  else if inDeg > 1 ∧ outDeg > 1 then "join_split"
  else "pass_through"

/-- `GATEWAY_TYPE_MAP` (only ever applied to gateway kinds). -/
def gatewayTypeName : NType → String
  | NType.XOR => "exclusive"
  | NType.AND => "parallel"
  | NType.OR => "inclusive"
  | _ => ""

def extractGateway (nodes : NodeMap) (edges : List Edge) (r2i : List (String × String))
    (rid : String) (nd : Node) : Gateway :=
  { id := makeGatewayId nodes rid nd
    type := gatewayTypeName nd.type
    role := gatewayRole (incomingOf edges rid).length (outgoingOf edges rid).length
    incoming_from :=
      firstDedup ((incomingOf edges rid).filterMap (fun p => incomingFromRef nodes r2i p.1))
    branches := (outgoingOf edges rid).filterMap (gbBranch nodes r2i)
    actor := if pyStrip nd.agent = "" then none else some (pyStrip nd.agent) }

/-- `extract_gateways`: one `Gateway` per gateway node, in node order. -/
def extractGateways (nodes : NodeMap) (edges : List Edge)
    (r2i : List (String × String)) : List Gateway :=
  nodes.filterMap (fun p =>
    if isGatewayKind p.2 then some (extractGateway nodes edges r2i p.1 p.2) else none)

/-! ### Path enumeration (`path_enumeration.py`) -/

def MAX_PATHS : Nat := 60

def MAX_LOOP_ITERATIONS : Nat := 2

/-- `is_split`: more than one outgoing edge. -/
def isSplitRid (edges : List Edge) (rid : String) : Bool :=
  decide (1 < (outgoingOf edges rid).length)

/-- `is_join`: more than one incoming edge. -/
def isJoinRid (edges : List Edge) (rid : String) : Bool :=
  decide (1 < (incomingOf edges rid).length)

/-- The `while queue` BFS loop shared by both passes of `find_matching_join`: pop,
skip if already visited or in `avoid` (the split node itself, first pass only),
otherwise record the visit and push all outgoing targets.  Returns the visited
list in visit order.  `fuel ≥ queue.length + edges.length + 1` can never be
exhausted: every iteration pops one element and elements are pushed only when a
node is newly visited, at most once per edge. -/
def bfsVisit (edges : List Edge) (avoid : List String) :
    Nat → List String → List String → List String
  | 0, _, visited => visited
  | _ + 1, [], visited => visited
  | fuel + 1, nid :: queue, visited =>
    if nid ∈ visited ∨ nid ∈ avoid then bfsVisit edges avoid fuel queue visited
    else
      bfsVisit edges avoid fuel (queue ++ (outgoingOf edges nid).map Prod.fst)
        (visited ++ [nid])

/-- The second `while queue` loop of `find_matching_join`: same traversal, but
return the first newly visited node satisfying `pred`. -/
def bfsFindJoin (edges : List Edge) (pred : String → Bool) :
    Nat → List String → List String → Option String
  | 0, _, _ => none
  | _ + 1, [], _ => none
  | fuel + 1, nid :: queue, visited =>
    if nid ∈ visited then bfsFindJoin edges pred fuel queue visited
    else if pred nid then some nid
    else
      bfsFindJoin edges pred fuel (queue ++ (outgoingOf edges nid).map Prod.fst)
        (visited ++ [nid])

/-- The acceptance test of the second pass: `nid in common and is_join(nid)` and
the node exists with a gateway type (`('AND', 'OR', 'XOR')`). -/
def joinPred (nodes : NodeMap) (edges : List Edge) (branchSets : List (List String))
    (nid : String) : Bool :=
  branchSets.all (fun s => decide (nid ∈ s)) && isJoinRid edges nid &&
    (match nodes.lookup nid with
     | some nd => isGatewayKind nd
     | none => false)

/-- `find_matching_join` (`path_enumeration.py`). -/
def findMatchingJoin (nodes : NodeMap) (edges : List Edge) (splitRid : String) :
    Option String :=
  let branchesOut := outgoingOf edges splitRid
  if branchesOut.length ≤ 1 then none
  else
    let branchSets :=
      branchesOut.map (fun tc => bfsVisit edges [splitRid] (edges.length + 2) [tc.1] [])
    if (branchSets.headD []).filter (fun x => branchSets.all (fun s => decide (x ∈ s))) = []
    then none
    else
      bfsFindJoin edges (joinPred nodes edges branchSets)
        (branchesOut.length + edges.length + 1) (branchesOut.map Prod.fst) []

/-- The per-branch restricted reach sets of `find_matching_join`'s first pass,
named for use in the statements below. -/
def branchSetsOf (edges : List Edge) (splitRid : String) : List (List String) :=
  (outgoingOf edges splitRid).map
    (fun tc => bfsVisit edges [splitRid] (edges.length + 2) [tc.1] [])

/-- The per-branch visit-count map (`defaultdict(int)`, value-copied per call). -/
def vcBump (vc : String → Nat) (rid : String) : String → Nat :=
  fun x => if x = rid then vc rid + 1 else vc x

/-- The combo loop of `_handle_and`: for each combination of per-branch sub-paths,
drop empty sub-paths; if none remain, continue from the join with the unchanged
path (no break check, Python's `continue`); otherwise extend the accumulator
with every permutation's interleaving, breaking at `MAX_PATHS` after each
extension and again after each combo. -/
def andComboLoop (cont : List String → List (List String)) (path : List String) :
    List (List (List String)) → List (List String) → List (List String)
  | [], acc => acc
  | combo :: rest, acc =>
    let seqs := combo.filter (fun s => !s.isEmpty)
    if seqs.isEmpty then andComboLoop cont path rest (acc ++ cont path)
    else
      let acc2 :=
        accumBreak MAX_PATHS (fun perm => cont (path ++ List.flatten perm))
          (pyPermutations seqs) acc
      if MAX_PATHS ≤ acc2.length then acc2 else andComboLoop cont path rest acc2

/-- The AND-split portion of `_handle_and` (the join/pass-through and no-branch
cases stay in the dispatcher).  `k rid path stop` is the recursive `_dfs` call at
the enclosing call's (already bumped) visit counts.  Permuting `branch_seqs`
directly is the same as Python's permuting of their indices: `itertools` is
positional either way. -/
def handleAndSplit (k : String → List String → List String → List (List String))
    (nodes : NodeMap) (edges : List Edge) (stopAt : List String)
    (current : String) (path : List String) : List (List String) :=
  let branchesOut := outgoingOf edges current
  let joinRid := findMatchingJoin nodes edges current
  let branchStop := match joinRid with | some j => [j] | none => []
  let branchPaths := branchesOut.map (fun tc => k tc.1 [] branchStop)
  let cont : List String → List (List String) := fun p =>
    match joinRid with
    | some j => k j p stopAt
    | none => [p]
  (andComboLoop cont path ((pyProduct branchPaths).take MAX_PATHS) []).take MAX_PATHS

/-- The innermost two loops of `_handle_or` for a fixed subset size: for each
subset (in `itertools.combinations` order) extend with every product of the
chosen branches' sub-paths, with the same break discipline. -/
def orSubsetLoop (cont : List String → List (List String)) (path : List String) :
    List (List (List (List String))) → List (List String) → List (List String)
  | [], acc => acc
  | subset :: rest, acc =>
    let acc2 :=
      accumBreak MAX_PATHS (fun combo => cont (path ++ List.flatten combo))
        (pyProduct subset) acc
    if MAX_PATHS ≤ acc2.length then acc2 else orSubsetLoop cont path rest acc2

/-- The outer `for r in range(1, len(branch_paths) + 1)` loop of `_handle_or`. -/
def orSizeLoop (cont : List String → List (List String)) (path : List String)
    (branchPaths : List (List (List String))) :
    List Nat → List (List String) → List (List String)
  | [], acc => acc
  | r :: rs, acc =>
    let acc2 := orSubsetLoop cont path (pyCombinations branchPaths r) acc
    if MAX_PATHS ≤ acc2.length then acc2 else orSizeLoop cont path branchPaths rs acc2

/-- The OR-split portion of `_handle_or`: every non-empty subset of branches, in
subset order, concatenated without permutation.  Taking subsets of
`branch_paths` directly matches Python's index subsets (`chosen = [branch_paths[i]
for i in subset]`). -/
def handleOrSplit (k : String → List String → List String → List (List String))
    (nodes : NodeMap) (edges : List Edge) (stopAt : List String)
    (current : String) (path : List String) : List (List String) :=
  let branchesOut := outgoingOf edges current
  let joinRid := findMatchingJoin nodes edges current
  let branchStop := match joinRid with | some j => [j] | none => []
  let branchPaths := branchesOut.map (fun tc => k tc.1 [] branchStop)
  let cont : List String → List (List String) := fun p =>
    match joinRid with
    | some j => k j p stopAt
    | none => [p]
  (orSizeLoop cont path branchPaths (List.range' 1 branchPaths.length) []).take MAX_PATHS

/-- `_dfs` of `enumerate_paths`, fuel-indexed (see the module comment: the fuel
bound used at top level cannot be exhausted, and the fuel-0 result equals the
source's early-return shape `[path]`). -/
def dfs (nodes : NodeMap) (edges : List Edge) (r2i : List (String × String)) :
    Nat → String → List String → (String → Nat) → List String → List (List String)
  | 0, _, path, _, _ => [path]
  | fuel + 1, current, path, vc, stopAt =>
    if current ∈ stopAt then [path]
    else if MAX_LOOP_ITERATIONS ≤ vc current then [path]
    else
      let vc2 := vcBump vc current
      match nodes.lookup current with
      | none => [path]
      | some nd =>
        match nd.type with
        | NType.EndNode =>
          match r2i.lookup current with
          | some a => [path ++ [a]]
          | none => [path]
        | NType.Activity =>
          let newPath := path ++ [ridId r2i current]
          let nexts := outgoingOf edges current
          if nexts.isEmpty then [newPath]
          else nexts.flatMap (fun tc => dfs nodes edges r2i fuel tc.1 newPath vc2 stopAt)
        | NType.StartNode =>
          if (r2i.lookup current).isSome then
            let newPath := path ++ [ridId r2i current]
            let nexts := outgoingOf edges current
            if nexts.isEmpty then [newPath]
            else nexts.flatMap (fun tc => dfs nodes edges r2i fuel tc.1 newPath vc2 stopAt)
          else
            (outgoingOf edges current).flatMap
              (fun tc => dfs nodes edges r2i fuel tc.1 path vc2 stopAt)
        | NType.XOR =>
          (outgoingOf edges current).flatMap
            (fun tc => dfs nodes edges r2i fuel tc.1 path vc2 stopAt)
        | NType.AND =>
          let branchesOut := outgoingOf edges current
          if branchesOut.isEmpty then [path]
          else if isJoinRid edges current && !isSplitRid edges current then
            branchesOut.flatMap (fun tc => dfs nodes edges r2i fuel tc.1 path vc2 stopAt)
          else
            handleAndSplit (fun r p s => dfs nodes edges r2i fuel r p vc2 s)
              nodes edges stopAt current path
        | NType.OR =>
          let branchesOut := outgoingOf edges current
          if branchesOut.isEmpty then [path]
          else if isJoinRid edges current && !isSplitRid edges current then
            branchesOut.flatMap (fun tc => dfs nodes edges r2i fuel tc.1 path vc2 stopAt)
          else
            handleOrSplit (fun r p s => dfs nodes edges r2i fuel r p vc2 s)
              nodes edges stopAt current path

/-- A fuel bound the DFS cannot exhaust: each recursive call strictly decreases
`Σ_{ids} (MAX_LOOP_ITERATIONS - visit_count)` over the finite universe of ids
(node keys, edge endpoints, start ids), which is at most
`2 * (|nodes| + 2 * |edges| + |starts|)`. -/
def dfsFuel (nodes : NodeMap) (edges : List Edge) (startRids : List String) : Nat :=
  2 * (nodes.length + 2 * edges.length + startRids.length) + 1

/-- The `for start in start_rids` accumulation of `enumerate_paths`. -/
def rawPaths (nodes : NodeMap) (edges : List Edge) (r2i : List (String × String))
    (startRids : List String) (fuel : Nat) : List (List String) :=
  startRids.flatMap (fun s => dfs nodes edges r2i fuel s [] (fun _ => 0) [])

/-- The final duplicate-removal loop of `enumerate_paths`. -/
def dedupPaths (paths : List (List String)) : List (List String) := firstDedup paths

/-- `enumerate_paths`. -/
def enumeratePaths (nodes : NodeMap) (edges : List Edge) (r2i : List (String × String))
    (startRids : List String) : List (List String) :=
  dedupPaths (rawPaths nodes edges r2i startRids (dfsFuel nodes edges startRids))

/-! ### `build_execution_states` -/

structure ExecState : Type where
  completed_actions : List String
  available_next : List String
  can_terminate : Bool
deriving DecidableEq

/-- `state_map[completed].add(next_action)`: add the next action (if any) set-wise. -/
def addNextVal (s : List String) : Option String → List String
  | some a => if a ∈ s then s else s ++ [a]
  | none => s

def addNext : List (List String × List String) → List String → Option String →
    List (List String × List String)
  | [], key, nx => [(key, addNextVal [] nx)]
  | (k, s) :: rest, key, nx =>
    if k = key then (k, addNextVal s nx) :: rest
    else (k, s) :: addNext rest key nx

/-- Python truthiness of the optional next action (`if next_action:`): `None`
and the empty-string action id are both falsy. -/
def pyTruthy : Option String → Bool
  | some a => decide (a ≠ "")
  | none => false

/-- What `if next_action:` effectively adds to the next-set: the next action
when truthy, nothing otherwise. -/
def effNext (nx : Option String) : Option String :=
  if pyTruthy nx then nx else none

/-- The inner `for step_idx in range(len(path) + 1)` loop: create the state-map
entry if absent, then `if next_action:` add it to the next-set, `else` record
the prefix as terminal — so a falsy `next_action` (end of path *or* the
empty-string action id) marks the prefix terminal and adds nothing. -/
def addPath (path : List String)
    (st : List (List String × List String) × List (List String)) :
    List (List String × List String) × List (List String) :=
  (List.range (path.length + 1)).foldl
    (fun st i =>
      let completed := path.take i
      let nx := path.get? i
      if pyTruthy nx then (addNext st.1 completed nx, st.2)
      else
        (addNext st.1 completed none,
         if completed ∈ st.2 then st.2 else st.2 ++ [completed]))
    st

/-- The state-map accumulation over `unique_paths[:MAX_PATHS]`. -/
def buildStateMap (paths : List (List String)) :
    List (List String × List String) × List (List String) :=
  (paths.take MAX_PATHS).foldl (fun st p => addPath p st) ([], [])

/-- Lexicographic `≤` on char lists by code point, as Python compares strings. -/
def charsLe : List Char → List Char → Bool
  | [], _ => true
  | _ :: _, [] => false
  | c :: cs, d :: ds => if c = d then charsLe cs ds else decide (c.toNat < d.toNat)

/-- Python's `<=` on strings. -/
def strLeb (a b : String) : Bool := charsLe a.data b.data

def insertSorted (a : String) : List String → List String
  | [] => [a]
  | b :: l => if strLeb a b then a :: b :: l else b :: insertSorted a l

/-- `sorted(...)` on a list of strings (ascending lexicographic, as in Python);
implemented as insertion sort. -/
def sortStrings (l : List String) : List String := l.foldr insertSorted []

/-- The value an `addNext` call stores for its key: the previous set (empty for a
fresh key), extended set-wise with the next action if one is present. -/
def updateVal (s : Option (List String)) (nx : Option String) : List String :=
  addNextVal (s.getD []) nx

/-- `build_execution_states`. -/
def buildExecutionStates (paths : List (List String)) : List ExecState :=
  let st := buildStateMap paths
  st.1.map (fun ks =>
    { completed_actions := ks.1
      available_next := sortStrings ks.2
      can_terminate := decide (ks.1 ∈ st.2) })

/-! ### Specification-side definitions (used to state the claims) -/

/-- The slug rule as worded in the spec: lower-case, strip leading/trailing
whitespace, replace spaces with underscores, drop apostrophes, drop every
remaining character that is not alphanumeric or underscore — as one pass. -/
def slugSpec (t : String) : String :=
  ⟨(pyStrip t).data.filterMap (fun c =>
    if c.toLower = ' ' then some '_'
    else if c.toLower = Char.ofNat 39 then none
    else if c.toLower.isAlphanum || c.toLower = '_' then some c.toLower else none)⟩

/-- One directed edge step of the graph. -/
def stepTo (edges : List Edge) (a b : String) : Prop :=
  b ∈ (outgoingOf edges a).map Prod.fst

/-- A step that avoids the nodes in `avoid` at both endpoints. -/
def avoidStep (edges : List Edge) (avoid : List String) (a b : String) : Prop :=
  stepTo edges a b ∧ a ∉ avoid ∧ b ∉ avoid

/-- Reachability along edges avoiding the `avoid` nodes (the spec's
"reachable from a branch, excluding the split node itself"). -/
def AvoidReach (edges : List Edge) (avoid : List String) (a b : String) : Prop :=
  a ∉ avoid ∧ Relation.ReflTransGen (avoidStep edges avoid) a b

/-- The spec's join candidate for a split: reachable from every immediate branch
(avoiding the split itself) and in-degree > 1; `gw` asks in addition for a gateway
node kind.  The claim asserts the `gw := False` version, the code implements the
`gw := True` version. -/
def JoinCandidate (nodes : NodeMap) (edges : List Edge) (splitRid : String)
    (gw : Bool) (x : String) : Prop :=
  (∀ t ∈ (outgoingOf edges splitRid).map Prod.fst, AvoidReach edges [splitRid] t x) ∧
  1 < (incomingOf edges x).length ∧
  (gw = true → ∃ nd, nodes.lookup x = some nd ∧ isGatewayKind nd = true)

/-- The BFS visit order from the split's immediate branches (the claim's
"BFS order"), as computed by the second, unrestricted traversal. -/
def bfsOrderFrom (edges : List Edge) (splitRid : String) : List String :=
  bfsVisit edges [] ((outgoingOf edges splitRid).length + edges.length + 1)
    ((outgoingOf edges splitRid).map Prod.fst) []

/-- The (corrected) contract of `find_matching_join` for a split node: the result
is the first node in BFS order from the split's immediate branches that is a
gateway-kind join candidate, and `none` is reported exactly when no such node
exists. -/
def joinSpecOk (nodes : NodeMap) (edges : List Edge) (splitRid : String) : Prop :=
  (∀ j, findMatchingJoin nodes edges splitRid = some j →
      JoinCandidate nodes edges splitRid true j ∧
      ∃ pre suf, bfsOrderFrom edges splitRid = pre ++ j :: suf ∧
        ∀ y ∈ pre, ¬ JoinCandidate nodes edges splitRid true y) ∧
  (findMatchingJoin nodes edges splitRid = none →
      ∀ x, ¬ JoinCandidate nodes edges splitRid true x)

/-- Union, over all paths with exact prefix `p`, of the path's next action at
position `p.length` (paths that end at `p` contribute nothing here). -/
def specNexts (paths : List (List String)) (p : List String) : List String :=
  paths.filterMap (fun q => if q.take p.length = p then q.get? p.length else none)

/-- The C5 claim as stated (union over *all* paths, no `MAX_PATHS` cap). -/
def c5Claim (paths : List (List String)) : Prop :=
  ∀ st ∈ buildExecutionStates paths,
    st.available_next = sortStrings (firstDedup (specNexts paths st.completed_actions)) ∧
    (st.can_terminate = true ↔ st.completed_actions ∈ paths)

instance (paths : List (List String)) : Decidable (c5Claim paths) := by
  unfold c5Claim; infer_instance

/-- A referent permitted by the claimed referential-closure invariant: an emitted
action id, an emitted gateway id, or the sentinel `"start"`. -/
def referentOk (nodes : NodeMap) (edges : List Edge) (v : String) : Prop :=
  v ∈ (extractActions nodes edges (buildRidToId nodes)).map Action.id ∨
  v ∈ (extractGateways nodes edges (buildRidToId nodes)).map Gateway.id ∨
  v = "start"

instance (nodes : NodeMap) (edges : List Edge) (v : String) :
    Decidable (referentOk nodes edges v) := by
  unfold referentOk; infer_instance

/-- The C4 claim as stated: every predecessor/successor/`incoming_from` value and
every non-null gateway-branch `next` is a known referent. -/
def c4Claim (nodes : NodeMap) (edges : List Edge) : Prop :=
  (∀ a ∈ extractActions nodes edges (buildRidToId nodes),
    (∀ p ∈ a.predecessors, referentOk nodes edges p) ∧
    (∀ s ∈ a.successors, referentOk nodes edges s)) ∧
  (∀ g ∈ extractGateways nodes edges (buildRidToId nodes),
    (∀ i ∈ g.incoming_from, referentOk nodes edges i) ∧
    (∀ b ∈ g.branches, ∀ v ∈ b.next.toList, referentOk nodes edges v))

instance (nodes : NodeMap) (edges : List Edge) : Decidable (c4Claim nodes edges) := by
  unfold c4Claim; infer_instance

/-- The raw-resource-id fallback actually taken by `extract_gateways` when a
branch targets an Activity or Start node with empty text. -/
def rawRidLeak (nodes : NodeMap) (v : String) : Prop :=
  ∃ nd, nodes.lookup v = some nd ∧
    (nd.type = NType.Activity ∨ nd.type = NType.StartNode) ∧ pyStrip nd.text = ""

/-! ### Concrete instances used by the claims -/

/-- C1 counterexample graph: two chained exclusive fans of 8 branches each;
`8 × 8 = 64 > MAX_PATHS` distinct complete paths. -/
def c1Nodes : NodeMap :=
  [("ns", ⟨NType.StartNode, "", ""⟩), ("x1", ⟨NType.XOR, "", ""⟩),
   ("x2", ⟨NType.XOR, "", ""⟩)]
  ++ (List.range 8).map (fun i => ("a" ++ Nat.repr i, ⟨NType.Activity, "a" ++ Nat.repr i, ""⟩))
  ++ (List.range 8).map (fun i => ("b" ++ Nat.repr i, ⟨NType.Activity, "b" ++ Nat.repr i, ""⟩))

def c1Edges : List Edge :=
  [⟨"ns", "x1", ""⟩]
  ++ (List.range 8).map (fun i => ⟨"x1", "a" ++ Nat.repr i, ""⟩)
  ++ (List.range 8).map (fun i => ⟨"a" ++ Nat.repr i, "x2", ""⟩)
  ++ (List.range 8).map (fun i => ⟨"x2", "b" ++ Nat.repr i, ""⟩)

/-- C2 counterexample graph: a parallel split whose two branches both run into the
same two-activity cycle `x ↔ y` and never reconverge at a gateway join. -/
def c2Nodes : NodeMap :=
  [("ns", ⟨NType.StartNode, "", ""⟩), ("ng", ⟨NType.AND, "", ""⟩),
   ("n1", ⟨NType.Activity, "b one", ""⟩), ("n2", ⟨NType.Activity, "b two", ""⟩),
   ("nx", ⟨NType.Activity, "x", ""⟩), ("ny", ⟨NType.Activity, "y", ""⟩)]

def c2Edges : List Edge :=
  [⟨"ns", "ng", ""⟩, ⟨"ng", "n1", ""⟩, ⟨"ng", "n2", ""⟩,
   ⟨"n1", "nx", ""⟩, ⟨"n2", "nx", ""⟩, ⟨"nx", "ny", ""⟩, ⟨"ny", "nx", ""⟩]

/-- C2 witness graph: a single looping activity, no parallel/inclusive gateways. -/
def c2wNodes : NodeMap :=
  [("ns", ⟨NType.StartNode, "", ""⟩), ("n1", ⟨NType.Activity, "a", ""⟩),
   ("n2", ⟨NType.Activity, "b", ""⟩)]

def c2wEdges : List Edge :=
  [⟨"ns", "n1", ""⟩, ⟨"n1", "n2", ""⟩, ⟨"n2", "n1", ""⟩]

/-- C3 counterexample graph: the branches of the exclusive split `s` converge
first (and only) at the plain activity `m`, which has in-degree 2; there is no
gateway-kind join anywhere. -/
def c3Nodes : NodeMap :=
  [("s", ⟨NType.XOR, "", ""⟩), ("na", ⟨NType.Activity, "a", ""⟩),
   ("nb", ⟨NType.Activity, "b", ""⟩), ("m", ⟨NType.Activity, "m", ""⟩),
   ("e", ⟨NType.EndNode, "", ""⟩)]

def c3Edges : List Edge :=
  [⟨"s", "na", ""⟩, ⟨"s", "nb", ""⟩, ⟨"na", "m", ""⟩, ⟨"nb", "m", ""⟩, ⟨"m", "e", ""⟩]

/-- C3 witness graph: a parallel split with a matching parallel join. -/
def c3wNodes : NodeMap :=
  [("ng", ⟨NType.AND, "", ""⟩), ("na", ⟨NType.Activity, "a", ""⟩),
   ("nb", ⟨NType.Activity, "b", ""⟩), ("nj", ⟨NType.AND, "", ""⟩)]

def c3wEdges : List Edge :=
  [⟨"ng", "na", ""⟩, ⟨"ng", "nb", ""⟩, ⟨"na", "nj", ""⟩, ⟨"nb", "nj", ""⟩]

/-- C4 counterexample graph: a gateway branch targeting an Activity node with
empty text leaks the raw resource id `"u"`. -/
def c4Nodes : NodeMap :=
  [("g", ⟨NType.XOR, "", ""⟩), ("u", ⟨NType.Activity, "", ""⟩)]

def c4Edges : List Edge := [⟨"g", "u", "go"⟩]

/-- C4/C5/C6 witness graph: the spec's own example shape (exclusive split into two
labeled activities, then an unlabeled end). -/
def c4wNodes : NodeMap :=
  [("ns", ⟨NType.StartNode, "", ""⟩), ("g", ⟨NType.XOR, "", ""⟩),
   ("p1", ⟨NType.Activity, "pay cash", ""⟩), ("p2", ⟨NType.Activity, "pay card", ""⟩),
   ("ne", ⟨NType.EndNode, "", ""⟩)]

def c4wEdges : List Edge :=
  [⟨"ns", "g", ""⟩, ⟨"g", "p1", "cash"⟩, ⟨"g", "p2", "card"⟩,
   ⟨"p1", "ne", ""⟩, ⟨"p2", "ne", ""⟩]

/-- C5 counterexample: 61 unique paths; the 61st shares the prefix `["a0"]` with
the first but is ignored by the `MAX_PATHS` cap of the state builder. -/
def c5Paths : List (List String) :=
  (List.range 60).map (fun i => ["a" ++ Nat.repr i]) ++ [["a0", "b"]]

/-- C6 counterexample graph: a gateway whose only outgoing edge targets an
unlabeled End node, with a condition label on the edge. -/
def c6Nodes : NodeMap :=
  [("g", ⟨NType.XOR, "", ""⟩), ("ne", ⟨NType.EndNode, "", ""⟩)]

def c6Edges : List Edge := [⟨"g", "ne", "stock ok"⟩]

/-- C8 graph shape: one parallel split with two single-action branches `na`, `nb`,
a parallel join, a continuation action `nc` and an unlabeled end.  The action ids
of the three activities are the parameters of the theorem. -/
def c8Nodes : NodeMap :=
  [("ns", ⟨NType.StartNode, "", ""⟩), ("ng", ⟨NType.AND, "", ""⟩),
   ("na", ⟨NType.Activity, "ta", ""⟩), ("nb", ⟨NType.Activity, "tb", ""⟩),
   ("nj", ⟨NType.AND, "", ""⟩), ("nc", ⟨NType.Activity, "tc", ""⟩),
   ("ne", ⟨NType.EndNode, "", ""⟩)]

def c8Edges : List Edge :=
  [⟨"ns", "ng", ""⟩, ⟨"ng", "na", ""⟩, ⟨"ng", "nb", ""⟩,
   ⟨"na", "nj", ""⟩, ⟨"nb", "nj", ""⟩, ⟨"nj", "nc", ""⟩, ⟨"nc", "ne", ""⟩]

/-- C9 graph shape: one inclusive split with two single-action branches. -/
def c9Nodes : NodeMap :=
  [("ns", ⟨NType.StartNode, "", ""⟩), ("ng", ⟨NType.OR, "", ""⟩),
   ("na", ⟨NType.Activity, "ta", ""⟩), ("nb", ⟨NType.Activity, "tb", ""⟩)]

def c9Edges : List Edge := [⟨"ns", "ng", ""⟩, ⟨"ng", "na", ""⟩, ⟨"ng", "nb", ""⟩]

/-- C10 graph: action `a` has one edge to a missing node `"nx"` and one to the
labeled activity `b`. -/
def c10Nodes : NodeMap :=
  [("n1", ⟨NType.Activity, "a", ""⟩), ("n2", ⟨NType.Activity, "b", ""⟩)]

def c10Edges : List Edge := [⟨"n1", "nx", ""⟩, ⟨"n1", "n2", ""⟩]

/-! ### Generic helper lemmas -/

theorem mem_firstDedupAux {α : Type} [DecidableEq α] (l seen : List α) (a : α) :
    a ∈ firstDedupAux l seen ↔ a ∈ l ∧ a ∉ seen := by
  induction l generalizing seen with
  | nil => simp [firstDedupAux]
  | cons x xs ih =>
    by_cases hx : x ∈ seen
    · rw [firstDedupAux, if_pos hx, ih]
      constructor
      · rintro ⟨h1, h2⟩
        exact ⟨List.mem_cons_of_mem _ h1, h2⟩
      · rintro ⟨h1, h2⟩
        rcases List.mem_cons.mp h1 with rfl | h1
        · exact absurd hx h2
        · exact ⟨h1, h2⟩
    · rw [firstDedupAux, if_neg hx]
      rw [List.mem_cons, ih]
      constructor
      · rintro (rfl | ⟨h1, h2⟩)
        · exact ⟨List.mem_cons_self _ _, hx⟩
        · exact ⟨List.mem_cons_of_mem _ h1, fun hs => h2 (List.mem_cons_of_mem _ hs)⟩
      · rintro ⟨h1, h2⟩
        by_cases hax : a = x
        · exact Or.inl hax
        · rcases List.mem_cons.mp h1 with rfl | h1
          · exact Or.inl rfl
          · refine Or.inr ⟨h1, fun hs => ?_⟩
            rcases List.mem_cons.mp hs with rfl | hs
            · exact hax rfl
            · exact h2 hs

theorem mem_firstDedup {α : Type} [DecidableEq α] (l : List α) (a : α) :
    a ∈ firstDedup l ↔ a ∈ l := by
  simp [firstDedup, mem_firstDedupAux]

theorem nodup_firstDedupAux {α : Type} [DecidableEq α] (l seen : List α) :
    (firstDedupAux l seen).Nodup := by
  induction l generalizing seen with
  | nil => simp [firstDedupAux]
  | cons x xs ih =>
    by_cases hx : x ∈ seen
    · simpa [firstDedupAux, if_pos hx] using ih seen
    · simp only [firstDedupAux, if_neg hx, List.nodup_cons]
      refine ⟨fun hmem => ?_, ih (x :: seen)⟩
      exact ((mem_firstDedupAux _ _ _).mp hmem).2 (List.mem_cons_self _ _)

theorem lookup_some_mem {α β : Type} [BEq α] [LawfulBEq α] {l : List (α × β)} {k : α} {v : β}
    (h : l.lookup k = some v) : (k, v) ∈ l := by
  induction l with
  | nil => simp [List.lookup] at h
  | cons p rest ih =>
    obtain ⟨k', v'⟩ := p
    rw [List.lookup] at h
    cases hbeq : (k == k') with
    | true =>
      rw [hbeq] at h
      obtain rfl : v' = v := by injection h
      obtain rfl : k = k' := by simpa using hbeq
      exact List.mem_cons_self _ _
    | false =>
      rw [hbeq] at h
      exact List.mem_cons_of_mem _ (ih h)

theorem lookup_eq_some_of_mem {α β : Type} [BEq α] [LawfulBEq α] {l : List (α × β)}
    {k : α} {v : β}
    (hn : (l.map Prod.fst).Nodup) (hm : (k, v) ∈ l) : l.lookup k = some v := by
  induction l with
  | nil => simp at hm
  | cons p rest ih =>
    obtain ⟨k', v'⟩ := p
    simp only [List.map_cons, List.nodup_cons] at hn
    rcases List.mem_cons.mp hm with h | h
    · obtain ⟨rfl, rfl⟩ := Prod.mk.injEq .. ▸ h
      rw [List.lookup]
      simp
    · have hk : k ≠ k' := by
        rintro rfl
        exact hn.1 (List.mem_map.mpr ⟨(k, v), h, rfl⟩)
      rw [List.lookup]
      have : (k == k') = false := by simpa using hk
      rw [this]
      exact ih hn.2 h

theorem lookup_isSome_mem_keys {α β : Type} [BEq α] [LawfulBEq α] {l : List (α × β)} {k : α}
    (h : (l.lookup k).isSome) : k ∈ l.map Prod.fst := by
  obtain ⟨v, hv⟩ := Option.isSome_iff_exists.mp h
  exact List.mem_map.mpr ⟨(k, v), lookup_some_mem hv, rfl⟩

theorem lookup_cons_self {α β : Type} [BEq α] [LawfulBEq α] (k : α) (v : β)
    (rest : List (α × β)) : ((k, v) :: rest).lookup k = some v := by
  simp [List.lookup]

theorem lookup_cons_ne {α β : Type} [BEq α] [LawfulBEq α] {k k' : α} (v : β)
    (rest : List (α × β)) (h : k' ≠ k) : ((k, v) :: rest).lookup k' = rest.lookup k' := by
  have hbeq : (k' == k) = false := by simpa using h
  simp [List.lookup, hbeq]

theorem filterMap_congr_on {α β : Type} {f g : α → Option β} (l : List α)
    (h : ∀ a ∈ l, f a = g a) : l.filterMap f = l.filterMap g := by
  induction l with
  | nil => rfl
  | cons x xs ih =>
    rw [List.filterMap_cons, List.filterMap_cons, h x (List.mem_cons_self _ _),
      ih (fun a ha => h a (List.mem_cons_of_mem _ ha))]

/-! ### C1 -/

/-- C1 counterexample: on `c1Nodes`/`c1Edges` the deduplicated output of
`enumerate_paths` has 64 > `MAX_PATHS` paths — the exclusive-gateway fan-out is
not capped, so the claimed global bound on the unique-path count is false. -/
theorem c1_counterexample :
    MAX_PATHS < (enumeratePaths c1Nodes c1Edges (buildRidToId c1Nodes) ["ns"]).length := by
  decide

/-- C1 (amended): the `MAX_PATHS` cap holds for each parallel/inclusive split
expansion and for the number of paths the execution-state builder consumes, not
for the deduplicated output of `enumerate_paths` itself. -/
theorem c1_capped :
    (∀ k nodes edges stopAt current path,
      (handleAndSplit k nodes edges stopAt current path).length ≤ MAX_PATHS) ∧
    (∀ k nodes edges stopAt current path,
      (handleOrSplit k nodes edges stopAt current path).length ≤ MAX_PATHS) ∧
    ∀ paths, buildStateMap paths = buildStateMap (paths.take MAX_PATHS) := by
  refine ⟨fun _ _ _ _ _ _ => List.length_take_le _ _,
    fun _ _ _ _ _ _ => List.length_take_le _ _, fun paths => ?_⟩
  unfold buildStateMap
  rw [List.take_take, min_self]

/-! ### C7 -/

/-- C7 counterexample: `graph_builder.make_action_id` has no empty-text fallback;
empty text yields the empty slug, not `"unnamed_action"` (only the
`extract_workflow` copy has the fallback). -/
theorem c7_counterexample :
    gbMakeActionId "" [] = "" ∧ ("" : String) ≠ "unnamed_action" := by
  constructor <;> decide

theorem slugChars (l : List Char) :
    (((l.map Char.toLower).map (fun c => if c = ' ' then '_' else c)).filter
        (fun c => decide (c ≠ Char.ofNat 39))).filter
        (fun c => c.isAlphanum || decide (c = '_'))
      = l.filterMap (fun c =>
          if c.toLower = ' ' then some '_'
          else if c.toLower = Char.ofNat 39 then none
          else if c.toLower.isAlphanum || c.toLower = '_' then some c.toLower else none) := by
  induction l with
  | nil => rfl
  | cons c l ih =>
    simp only [List.map_cons, List.filter_cons, List.filterMap_cons]
    by_cases hsp : c.toLower = ' '
    · rw [if_pos hsp, if_pos hsp, if_pos (by decide : (decide (Char.ofNat 95 = Char.ofNat 39 → False)) = true),
        List.filter_cons, if_pos (by decide : ('_'.isAlphanum || decide ('_' = '_')) = true), ih]
    · rw [if_neg hsp, if_neg hsp]
      by_cases hap : c.toLower = Char.ofNat 39
      · rw [if_pos hap, if_neg (show ¬(decide ¬c.toLower = Char.ofNat 39) = true by
          simpa using hap), ih]
      · rw [if_neg hap, if_pos (show (decide ¬c.toLower = Char.ofNat 39) = true by
          simpa using hap), List.filter_cons]
        by_cases hal : (c.toLower.isAlphanum || decide (c.toLower = '_')) = true
        · rw [if_pos hal, if_pos hal, ih]
        · rw [if_neg hal, if_neg hal, ih]

/-- The code's slug pipeline agrees with the spec's one-pass description. -/
theorem slug_eq_slugSpec (t : String) : slug t = slugSpec t :=
  congrArg String.mk (slugChars (pyStrip t).data)

/-- C7 (amended): the two `make_action_id` implementations agree on non-empty
text; only the `extract_workflow` copy maps empty/whitespace-only text to
`"unnamed_action"` (the `graph_builder` copy returns the empty slug, shown in the
counterexample); the slug rule matches the spec's description; and collisions are
resolved by appending the first unused `_2`, `_3`, … suffix, as on the spec's
`"Order Drink"` example. -/
theorem c7_make_action_id :
    (∀ t seen, pyStrip t ≠ "" → ewMakeActionId t seen = gbMakeActionId t seen) ∧
    (∀ t seen, pyStrip t = "" → ewMakeActionId t seen = "unnamed_action") ∧
    (∀ t, slug t = slugSpec t) ∧
    gbMakeActionId "Order Drink" [] = "order_drink" ∧
    gbMakeActionId "Order Drink" ["order_drink"] = "order_drink_2" ∧
    gbMakeActionId "Order Drink" ["order_drink", "order_drink_2"] = "order_drink_3" ∧
    gbMakeActionId "Order Drink" ["order_drink", "order_drink_3"] = "order_drink_2" := by
  refine ⟨fun t seen h => ?_, fun t seen h => ?_, slug_eq_slugSpec, ?_, ?_, ?_, ?_⟩
  · rw [ewMakeActionId, if_neg h]
  · rw [ewMakeActionId, if_pos h]
  all_goals decide

theorem c7_make_action_id_witness :
    (pyStrip "pay" ≠ "" ∧ ewMakeActionId "pay" [] = gbMakeActionId "pay" []) ∧
    (pyStrip " " = "" ∧ ewMakeActionId " " [] = "unnamed_action") :=
  ⟨⟨by decide, c7_make_action_id.1 "pay" [] (by decide)⟩,
   ⟨by decide, c7_make_action_id.2.1 " " [] (by decide)⟩⟩

/-! ### Counterexamples for C2, C4, C5, C6, C10 -/

/-- C2 counterexample: on `c2Nodes`/`c2Edges`, node `nx` (action id `"x"`) occurs
4 > `MAX_LOOP_ITERATIONS` times in an enumerated path: each parallel branch may
visit it up to `MAX_LOOP_ITERATIONS` times and the branches are concatenated. -/
theorem c2_counterexample :
    (buildRidToId c2Nodes).lookup "nx" = some "x" ∧
    ∃ p ∈ enumeratePaths c2Nodes c2Edges (buildRidToId c2Nodes) ["ns"],
      MAX_LOOP_ITERATIONS < p.count "x" := by
  decide

/-- C4 counterexample: the referential-closure claim is false — on
`c4Nodes`/`c4Edges` the gateway branch `next` is the raw resource id `"u"`
(an Activity node with empty text), which is no emitted id and not `"start"`. -/
theorem c4_counterexample : ¬ c4Claim c4Nodes c4Edges := by decide

set_option maxRecDepth 10000 in
/-- C5 counterexample: with 61 unique paths, the path beyond the `MAX_PATHS` cap
contributes no `available_next` entry, so the claimed union over *all* paths with
the prefix is false. -/
theorem c5_counterexample : ¬ c5Claim c5Paths := by decide

/-- C6 counterexample: the extractor inlined in `extract_workflow.py` *drops* the
branch targeting an unlabeled End node (discarding its condition label), while
`graph_builder.extract_gateways` emits it with `next = null`. -/
theorem c6_counterexample :
    ewGatewayBranches c6Nodes c6Edges (buildRidToId c6Nodes) "g" = [] ∧
    (outgoingOf c6Edges "g").length = 1 ∧
    (extractGateways c6Nodes c6Edges (buildRidToId c6Nodes)).map Gateway.branches
      = [[{ next := none, condition := some "stock ok" }]] := by
  refine ⟨by decide, by decide, by decide⟩

/-- C10 counterexample: an edge to a missing node is not "ignored" by path
enumeration — it terminates the traversal there and the truncated path `["a"]`
is emitted; removing the dangling edge changes the output. -/
theorem c10_counterexample :
    enumeratePaths c10Nodes c10Edges (buildRidToId c10Nodes) ["n1"]
      = [["a"], ["a", "b"]] ∧
    enumeratePaths c10Nodes (c10Edges.filter (fun e => (c10Nodes.lookup e.tgt).isSome))
        (buildRidToId c10Nodes) ["n1"] = [["a", "b"]] := by
  refine ⟨by decide, by decide⟩

/-! ### `build_rid_to_id` infrastructure (for C4 and C6) -/

theorem mem_keys_lookup_isSome {α β : Type} [BEq α] [LawfulBEq α] {l : List (α × β)} {k : α}
    (h : k ∈ l.map Prod.fst) : (l.lookup k).isSome := by
  induction l with
  | nil => simp at h
  | cons p rest ih =>
    obtain ⟨k', v'⟩ := p
    rw [List.lookup]
    by_cases hk : k = k'
    · subst hk; simp
    · have hbeq : (k == k') = false := by simpa using hk
      rw [hbeq]
      apply ih
      simp only [List.map_cons, List.mem_cons] at h
      rcases h with h | h
      · exact absurd h hk
      · exact h

theorem buildRidToIdAux_keys_sublist (nodes : NodeMap) (seen : List String) :
    ((buildRidToIdAux nodes seen).map Prod.fst).Sublist (nodes.map Prod.fst) := by
  induction nodes generalizing seen with
  | nil => simp [buildRidToIdAux]
  | cons p rest ih =>
    obtain ⟨rid, nd⟩ := p
    rw [buildRidToIdAux]
    by_cases ha : isActionable nd
    · rw [if_pos ha]
      simpa using (ih _).cons₂ rid
    · rw [if_neg ha]
      exact (ih seen).cons rid

theorem buildRidToIdAux_mem_node (nodes : NodeMap) (seen : List String) {rid aid : String}
    (h : (rid, aid) ∈ buildRidToIdAux nodes seen) :
    ∃ nd, (rid, nd) ∈ nodes ∧ isActionable nd = true := by
  induction nodes generalizing seen with
  | nil => simp [buildRidToIdAux] at h
  | cons p rest ih =>
    obtain ⟨rid', nd'⟩ := p
    rw [buildRidToIdAux] at h
    by_cases ha : isActionable nd'
    · rw [if_pos ha] at h
      rcases List.mem_cons.mp h with h | h
      · obtain ⟨h1, _⟩ := Prod.mk.injEq .. ▸ h
        subst h1
        exact ⟨nd', List.mem_cons_self _ _, ha⟩
      · obtain ⟨nd, hmem, hact⟩ := ih _ h
        exact ⟨nd, List.mem_cons_of_mem _ hmem, hact⟩
    · rw [if_neg ha] at h
      obtain ⟨nd, hmem, hact⟩ := ih _ h
      exact ⟨nd, List.mem_cons_of_mem _ hmem, hact⟩

theorem buildRidToIdAux_node_mem (nodes : NodeMap) {rid : String} {nd : Node}
    (hmem : (rid, nd) ∈ nodes) (hact : isActionable nd = true) :
    ∀ seen, ∃ aid, (rid, aid) ∈ buildRidToIdAux nodes seen := by
  induction nodes with
  | nil => simp at hmem
  | cons p rest ih =>
    intro seen
    obtain ⟨rid', nd'⟩ := p
    rw [buildRidToIdAux]
    rcases List.mem_cons.mp hmem with h | h
    · obtain ⟨h1, h2⟩ := Prod.mk.injEq .. ▸ h
      subst h1; subst h2
      rw [if_pos hact]
      exact ⟨_, List.mem_cons_self _ _⟩
    · by_cases ha : isActionable nd'
      · rw [if_pos ha]
        obtain ⟨aid, haid⟩ := ih h _
        exact ⟨aid, List.mem_cons_of_mem _ haid⟩
      · rw [if_neg ha]
        exact ih h seen

theorem buildRidToId_keys_nodup (nodes : NodeMap) (hn : (nodes.map Prod.fst).Nodup) :
    ((buildRidToId nodes).map Prod.fst).Nodup :=
  hn.sublist (buildRidToIdAux_keys_sublist nodes [])

theorem r2iLookup_isSome_iff (nodes : NodeMap) (hn : (nodes.map Prod.fst).Nodup)
    {rid : String} {nd : Node} (hnd : nodes.lookup rid = some nd) :
    ((buildRidToId nodes).lookup rid).isSome ↔ isActionable nd = true := by
  constructor
  · intro hs
    obtain ⟨aid, haid⟩ := Option.isSome_iff_exists.mp hs
    obtain ⟨nd', hmem', hact'⟩ := buildRidToIdAux_mem_node nodes [] (lookup_some_mem haid)
    have : nodes.lookup rid = some nd' := lookup_eq_some_of_mem hn hmem'
    rw [hnd] at this
    obtain rfl : nd = nd' := by injection this
    exact hact'
  · intro hact
    obtain ⟨aid, haid⟩ := buildRidToIdAux_node_mem nodes (lookup_some_mem hnd) hact []
    exact mem_keys_lookup_isSome (List.mem_map.mpr ⟨(rid, aid), haid, rfl⟩)

theorem actionId_mem (nodes : NodeMap) (edges : List Edge)
    (hn : (nodes.map Prod.fst).Nodup) {rid aid : String}
    (hmem : (rid, aid) ∈ buildRidToId nodes) :
    aid ∈ (extractActions nodes edges (buildRidToId nodes)).map Action.id := by
  obtain ⟨nd, hmemn, hact⟩ := buildRidToIdAux_mem_node nodes [] hmem
  have hlk : (buildRidToId nodes).lookup rid = some aid :=
    lookup_eq_some_of_mem (buildRidToId_keys_nodup nodes hn) hmem
  refine List.mem_map.mpr ⟨extractAction nodes edges (buildRidToId nodes) rid nd, ?_, ?_⟩
  · exact List.mem_filterMap.mpr ⟨(rid, nd), hmemn, by rw [if_pos hact]⟩
  · show ridId (buildRidToId nodes) rid = aid
    rw [ridId, hlk]
    rfl

theorem gatewayId_mem (nodes : NodeMap) (edges : List Edge) (r2i : List (String × String))
    {rid : String} {nd : Node} (hmem : (rid, nd) ∈ nodes) (hgw : isGatewayKind nd = true) :
    makeGatewayId nodes rid nd ∈ (extractGateways nodes edges r2i).map Gateway.id :=
  List.mem_map.mpr ⟨extractGateway nodes edges r2i rid nd,
    List.mem_filterMap.mpr ⟨(rid, nd), hmem, by rw [if_pos hgw]⟩, rfl⟩

theorem not_actionable_empty_text {nd : Node}
    (hna : isActionable nd = false) (hty : nd.type ∈ actionableTypes) :
    pyStrip nd.text = "" := by
  unfold isActionable at hna
  rw [Bool.and_eq_false_iff] at hna
  rcases hna with h | h
  · rw [decide_eq_false_iff_not] at h
    exact absurd hty h
  · rw [decide_eq_false_iff_not] at h
    exact not_not.mp h

theorem gatewayKind_type {nd : Node} (h : isGatewayKind nd = true) :
    nd.type = NType.XOR ∨ nd.type = NType.AND ∨ nd.type = NType.OR := by
  unfold isGatewayKind at h
  rcases Bool.or_eq_true .. ▸ h with h | h
  · rcases Bool.or_eq_true .. ▸ h with h | h
    · exact Or.inl (of_decide_eq_true h)
    · exact Or.inr (Or.inl (of_decide_eq_true h))
  · exact Or.inr (Or.inr (of_decide_eq_true h))

theorem actionable_of_r2i_some (nodes : NodeMap) (hn : (nodes.map Prod.fst).Nodup)
    {rid : String} (hs : ((buildRidToId nodes).lookup rid).isSome) :
    ∃ nd, nodes.lookup rid = some nd ∧ isActionable nd = true := by
  obtain ⟨aid, haid⟩ := Option.isSome_iff_exists.mp hs
  obtain ⟨nd, hmem, hact⟩ := buildRidToIdAux_mem_node nodes [] (lookup_some_mem haid)
  exact ⟨nd, lookup_eq_some_of_mem hn hmem, hact⟩

theorem ridId_mem_actionIds (nodes : NodeMap) (edges : List Edge)
    (hn : (nodes.map Prod.fst).Nodup) {rid : String}
    (hs : ((buildRidToId nodes).lookup rid).isSome) :
    ridId (buildRidToId nodes) rid
      ∈ (extractActions nodes edges (buildRidToId nodes)).map Action.id := by
  obtain ⟨aid, haid⟩ := Option.isSome_iff_exists.mp hs
  have : ridId (buildRidToId nodes) rid = aid := by rw [ridId, haid]; rfl
  rw [this]
  exact actionId_mem nodes edges hn (lookup_some_mem haid)

/-! ### C4 (amended theorem) -/

theorem predecessorRef_ok (nodes : NodeMap) (edges : List Edge)
    (hn : (nodes.map Prod.fst).Nodup) {src v : String}
    (h : predecessorRef nodes (buildRidToId nodes) src = some v) :
    referentOk nodes edges v := by
  unfold predecessorRef at h
  cases hnd : nodes.lookup src with
  | none => rw [hnd] at h; exact absurd h (by simp)
  | some sn =>
    rw [hnd] at h
    dsimp only at h
    by_cases hact : isActionable sn
    · rw [if_pos hact] at h
      obtain rfl : ridId (buildRidToId nodes) src = v := by injection h
      exact Or.inl (ridId_mem_actionIds nodes edges hn
        ((r2iLookup_isSome_iff nodes hn hnd).mpr hact))
    · rw [if_neg hact] at h
      by_cases hgw : isGatewayKind sn
      · rw [if_pos hgw] at h
        obtain rfl : makeGatewayId nodes src sn = v := by injection h
        exact Or.inr (Or.inl (gatewayId_mem nodes edges _ (lookup_some_mem hnd) hgw))
      · rw [if_neg hgw] at h
        by_cases hst : sn.type = NType.StartNode
        · rw [if_pos hst] at h
          obtain rfl : "start" = v := by injection h
          exact Or.inr (Or.inr rfl)
        · rw [if_neg hst] at h
          exact absurd h (by simp)

theorem successorRef_ok (nodes : NodeMap) (edges : List Edge)
    (hn : (nodes.map Prod.fst).Nodup) {tgt v : String}
    (h : successorRef nodes (buildRidToId nodes) tgt = some v) :
    referentOk nodes edges v := by
  unfold successorRef at h
  cases hnd : nodes.lookup tgt with
  | none => rw [hnd] at h; exact absurd h (by simp)
  | some tn =>
    rw [hnd] at h
    dsimp only at h
    by_cases hact : isActionable tn
    · rw [if_pos hact] at h
      obtain rfl : ridId (buildRidToId nodes) tgt = v := by injection h
      exact Or.inl (ridId_mem_actionIds nodes edges hn
        ((r2iLookup_isSome_iff nodes hn hnd).mpr hact))
    · rw [if_neg hact] at h
      by_cases hgw : isGatewayKind tn
      · rw [if_pos hgw] at h
        obtain rfl : makeGatewayId nodes tgt tn = v := by injection h
        exact Or.inr (Or.inl (gatewayId_mem nodes edges _ (lookup_some_mem hnd) hgw))
      · rw [if_neg hgw] at h
        exact absurd h (by simp)

theorem incomingFromRef_ok (nodes : NodeMap) (edges : List Edge)
    (hn : (nodes.map Prod.fst).Nodup) {src v : String}
    (h : incomingFromRef nodes (buildRidToId nodes) src = some v) :
    referentOk nodes edges v := by
  unfold incomingFromRef at h
  cases hnd : nodes.lookup src with
  | none => rw [hnd] at h; exact absurd h (by simp)
  | some sn =>
    rw [hnd] at h
    dsimp only at h
    by_cases hs : ((buildRidToId nodes).lookup src).isSome
    · rw [if_pos hs] at h
      obtain rfl : ridId (buildRidToId nodes) src = v := by injection h
      exact Or.inl (ridId_mem_actionIds nodes edges hn hs)
    · rw [if_neg hs] at h
      by_cases hgw : isGatewayKind sn
      · rw [if_pos hgw] at h
        obtain rfl : makeGatewayId nodes src sn = v := by injection h
        exact Or.inr (Or.inl (gatewayId_mem nodes edges _ (lookup_some_mem hnd) hgw))
      · rw [if_neg hgw] at h
        exact absurd h (by simp)

theorem gbBranchRef_ok (nodes : NodeMap) (edges : List Edge)
    (hn : (nodes.map Prod.fst).Nodup) {tgt v : String}
    (h : gbBranchRef nodes (buildRidToId nodes) tgt = some (some v)) :
    referentOk nodes edges v ∨ rawRidLeak nodes v := by
  unfold gbBranchRef at h
  cases hnd : nodes.lookup tgt with
  | none => rw [hnd] at h; exact absurd h (by simp)
  | some tn =>
    rw [hnd] at h
    dsimp only at h
    by_cases hs : ((buildRidToId nodes).lookup tgt).isSome
    · rw [if_pos hs] at h
      obtain rfl : ridId (buildRidToId nodes) tgt = v := by
        have := Option.some.inj h
        injection this
      exact Or.inl (Or.inl (ridId_mem_actionIds nodes edges hn hs))
    · rw [if_neg hs] at h
      by_cases hgw : isGatewayKind tn
      · rw [if_pos hgw] at h
        obtain rfl : makeGatewayId nodes tgt tn = v := by
          have := Option.some.inj h
          injection this
        exact Or.inl (Or.inr (Or.inl (gatewayId_mem nodes edges _ (lookup_some_mem hnd) hgw)))
      · rw [if_neg hgw] at h
        by_cases hend : tn.type = NType.EndNode
        · rw [if_pos hend] at h
          exact absurd (Option.some.inj h) (by simp)
        · rw [if_neg hend] at h
          obtain rfl : tgt = v := by
            have := Option.some.inj h
            injection this
          have hna : isActionable tn = false := by
            cases hq : isActionable tn
            · rfl
            · exact absurd ((r2iLookup_isSome_iff nodes hn hnd).mpr hq) hs
          have hty : tn.type = NType.Activity ∨ tn.type = NType.StartNode := by
            cases htt : tn.type
            case Activity => exact Or.inl rfl
            case StartNode => exact Or.inr rfl
            case EndNode => exact absurd htt hend
            case XOR => exact absurd (by unfold isGatewayKind; rw [htt]; decide) hgw
            case AND => exact absurd (by unfold isGatewayKind; rw [htt]; decide) hgw
            case OR => exact absurd (by unfold isGatewayKind; rw [htt]; decide) hgw
          refine Or.inr ⟨tn, hnd, hty, ?_⟩
          apply not_actionable_empty_text hna
          rcases hty with hty | hty <;> rw [hty] <;> decide
set_option maxHeartbeats 1000000 in
/-- C4 (amended): every predecessor/successor/`incoming_from` value is an emitted
ActionId, an emitted GatewayId, or the sentinel `"start"`; a gateway-branch
`next` is additionally allowed to be `null` or — the amendment — the raw
resource id of an Activity/Start node with empty text (the `else: next_id = tgt`
fallback of `extract_gateways`). -/
theorem c4_referential_closure (nodes : NodeMap) (edges : List Edge)
    (hn : (nodes.map Prod.fst).Nodup) :
    (∀ a ∈ extractActions nodes edges (buildRidToId nodes),
      (∀ p ∈ a.predecessors, referentOk nodes edges p) ∧
      (∀ v ∈ a.successors, referentOk nodes edges v)) ∧
    (∀ g ∈ extractGateways nodes edges (buildRidToId nodes),
      (∀ i ∈ g.incoming_from, referentOk nodes edges i) ∧
      (∀ b ∈ g.branches, ∀ v ∈ b.next.toList,
        referentOk nodes edges v ∨ rawRidLeak nodes v)) := by
  constructor
  · intro a ha
    obtain ⟨⟨rid, nd⟩, hmem, heq⟩ := List.mem_filterMap.mp ha
    by_cases hact : isActionable nd
    · rw [if_pos hact] at heq
      obtain rfl : extractAction nodes edges (buildRidToId nodes) rid nd = a := by
        injection heq
      constructor
      · intro p hp
        obtain ⟨sc, _, href⟩ := List.mem_filterMap.mp ((mem_firstDedup _ p).mp hp)
        exact predecessorRef_ok nodes edges hn href
      · intro v hv
        obtain ⟨tc, _, href⟩ := List.mem_filterMap.mp ((mem_firstDedup _ v).mp hv)
        exact successorRef_ok nodes edges hn href
    · rw [if_neg hact] at heq
      exact absurd heq (by simp)
  · intro g hg
    obtain ⟨⟨rid, nd⟩, hmem, heq⟩ := List.mem_filterMap.mp hg
    by_cases hgw : isGatewayKind nd
    · rw [if_pos hgw] at heq
      obtain rfl : extractGateway nodes edges (buildRidToId nodes) rid nd = g := by
        injection heq
      constructor
      · intro i hi
        obtain ⟨sc, _, href⟩ := List.mem_filterMap.mp ((mem_firstDedup _ i).mp hi)
        exact incomingFromRef_ok nodes edges hn href
      · intro b hb v hv
        obtain ⟨tc, _, hbr⟩ := List.mem_filterMap.mp hb
        unfold gbBranch at hbr
        cases hrf : gbBranchRef nodes (buildRidToId nodes) tc.1 with
        | none => rw [hrf] at hbr; exact absurd hbr (by simp)
        | some nx =>
          rw [hrf] at hbr
          dsimp only at hbr
          obtain rfl :
              ({ next := nx,
                 condition := if pyStrip tc.2 = "" then none
                   else some (pyStrip tc.2) } : Branch) = b := by
            injection hbr
          cases nx with
          | none => exact absurd hv (by simp)
          | some w =>
            have hvw : v = w := by simpa using hv
            subst hvw
            exact gbBranchRef_ok nodes edges hn hrf
    · rw [if_neg hgw] at heq
      exact absurd heq (by simp)

theorem c4_referential_closure_witness :
    (c4wNodes.map Prod.fst).Nodup ∧
    ((∀ a ∈ extractActions c4wNodes c4wEdges (buildRidToId c4wNodes),
      (∀ p ∈ a.predecessors, referentOk c4wNodes c4wEdges p) ∧
      (∀ v ∈ a.successors, referentOk c4wNodes c4wEdges v)) ∧
    (∀ g ∈ extractGateways c4wNodes c4wEdges (buildRidToId c4wNodes),
      (∀ i ∈ g.incoming_from, referentOk c4wNodes c4wEdges i) ∧
      (∀ b ∈ g.branches, ∀ v ∈ b.next.toList,
        referentOk c4wNodes c4wEdges v ∨ rawRidLeak c4wNodes v))) :=
  ⟨by decide, c4_referential_closure c4wNodes c4wEdges (by decide)⟩

/-! ### C6 (amended theorem) -/

/-- C6 (amended): `graph_builder.extract_gateways` emits, for every outgoing
gateway edge whose target exists, one branch whose `next` is null exactly when
the target is an unlabeled End node, preserving the condition label; the inline
extractor of `extract_workflow.py` instead *skips* such branches (shown in the
counterexample). -/
theorem c6_terminal_branches (nodes : NodeMap) (hn : (nodes.map Prod.fst).Nodup) :
    (∀ tgt cond tn, nodes.lookup tgt = some tn →
      ∃ b, gbBranch nodes (buildRidToId nodes) (tgt, cond) = some b ∧
        (b.next = none ↔ tn.type = NType.EndNode ∧ pyStrip tn.text = "") ∧
        b.condition = (if pyStrip cond = "" then none else some (pyStrip cond))) ∧
    (∀ tgt cond tn, nodes.lookup tgt = some tn → tn.type = NType.EndNode →
      pyStrip tn.text = "" → ewBranch nodes (buildRidToId nodes) (tgt, cond) = none) := by
  have hactFalse : ∀ {tgt tn}, nodes.lookup tgt = some tn →
      ¬ ((buildRidToId nodes).lookup tgt).isSome = true → isActionable tn = false := by
    intro tgt tn hnd hs
    cases hq : isActionable tn
    · rfl
    · exact absurd ((r2iLookup_isSome_iff nodes hn hnd).mpr hq) hs
  have hactEmpty : ∀ {tgt tn}, nodes.lookup tgt = some tn →
      ((buildRidToId nodes).lookup tgt).isSome = true → ¬ pyStrip tn.text = "" := by
    intro tgt tn hnd hs hempty
    obtain ⟨nd2, hnd2, hact⟩ := actionable_of_r2i_some nodes hn hs
    rw [hnd] at hnd2
    obtain rfl : tn = nd2 := by injection hnd2
    unfold isActionable at hact
    rw [Bool.and_eq_true] at hact
    exact absurd hempty (of_decide_eq_true hact.2)
  constructor
  · intro tgt cond tn hnd
    by_cases hs : ((buildRidToId nodes).lookup tgt).isSome
    · have href : gbBranchRef nodes (buildRidToId nodes) tgt
          = some (some (ridId (buildRidToId nodes) tgt)) := by
        unfold gbBranchRef
        rw [hnd]
        dsimp only
        rw [if_pos hs]
      refine ⟨⟨some (ridId (buildRidToId nodes) tgt),
        if pyStrip cond = "" then none else some (pyStrip cond)⟩, ?_, ?_, rfl⟩
      · unfold gbBranch
        dsimp only
        rw [href]
      · constructor
        · intro hq; exact absurd hq (by simp)
        · rintro ⟨_, hempty⟩
          exact absurd hempty (hactEmpty hnd hs)
    · have hna := hactFalse hnd hs
      by_cases hgw : isGatewayKind tn
      · have href : gbBranchRef nodes (buildRidToId nodes) tgt
            = some (some (makeGatewayId nodes tgt tn)) := by
          unfold gbBranchRef
          rw [hnd]
          dsimp only
          rw [if_neg hs, if_pos hgw]
        refine ⟨⟨some (makeGatewayId nodes tgt tn),
          if pyStrip cond = "" then none else some (pyStrip cond)⟩, ?_, ?_, rfl⟩
        · unfold gbBranch
          dsimp only
          rw [href]
        · constructor
          · intro hq; exact absurd hq (by simp)
          · rintro ⟨hend, _⟩
            rcases gatewayKind_type hgw with h | h | h <;> rw [hend] at h <;>
              exact absurd h (by simp)
      · by_cases hend : tn.type = NType.EndNode
        · have href : gbBranchRef nodes (buildRidToId nodes) tgt = some none := by
            unfold gbBranchRef
            rw [hnd]
            dsimp only
            rw [if_neg hs, if_neg hgw, if_pos hend]
          refine ⟨⟨none, if pyStrip cond = "" then none else some (pyStrip cond)⟩,
            ?_, ?_, rfl⟩
          · unfold gbBranch
            dsimp only
            rw [href]
          · constructor
            · intro _
              refine ⟨hend, not_actionable_empty_text hna (by rw [hend]; decide)⟩
            · intro _
              rfl
        · have href : gbBranchRef nodes (buildRidToId nodes) tgt = some (some tgt) := by
            unfold gbBranchRef
            rw [hnd]
            dsimp only
            rw [if_neg hs, if_neg hgw, if_neg hend]
          refine ⟨⟨some tgt, if pyStrip cond = "" then none else some (pyStrip cond)⟩,
            ?_, ?_, rfl⟩
          · unfold gbBranch
            dsimp only
            rw [href]
          · constructor
            · intro hq; exact absurd hq (by simp)
            · rintro ⟨h1, _⟩
              exact absurd h1 hend
  · intro tgt cond tn hnd hend hempty
    have hs : ¬ ((buildRidToId nodes).lookup tgt).isSome = true := by
      intro hq
      exact hactEmpty hnd hq hempty
    have hgw : ¬ isGatewayKind tn = true := by
      intro hq
      rcases gatewayKind_type hq with h | h | h <;> rw [hend] at h <;>
        exact absurd h (by simp)
    have href : ewBranchRef nodes (buildRidToId nodes) tgt = none := by
      unfold ewBranchRef
      rw [hnd]
      dsimp only
      rw [if_neg hs, if_neg hgw, if_pos hend]
    unfold ewBranch
    dsimp only
    rw [href]

theorem c6_terminal_branches_witness :
    (c6Nodes.map Prod.fst).Nodup ∧
    ((∀ tgt cond tn, c6Nodes.lookup tgt = some tn →
      ∃ b, gbBranch c6Nodes (buildRidToId c6Nodes) (tgt, cond) = some b ∧
        (b.next = none ↔ tn.type = NType.EndNode ∧ pyStrip tn.text = "") ∧
        b.condition = (if pyStrip cond = "" then none else some (pyStrip cond))) ∧
    (∀ tgt cond tn, c6Nodes.lookup tgt = some tn → tn.type = NType.EndNode →
      pyStrip tn.text = "" → ewBranch c6Nodes (buildRidToId c6Nodes) (tgt, cond) = none)) :=
  ⟨by decide, c6_terminal_branches c6Nodes (by decide)⟩

/-! ### String sorting lemmas (for C5) -/

theorem charToNat_inj {a b : Char} (h : a.toNat = b.toNat) : a = b := by
  apply Char.ext
  apply UInt32.ext
  exact h

theorem charsLe_total : ∀ l1 l2 : List Char, charsLe l1 l2 = true ∨ charsLe l2 l1 = true := by
  intro l1
  induction l1 with
  | nil => intro l2; exact Or.inl rfl
  | cons c cs ih =>
    intro l2
    cases l2 with
    | nil => exact Or.inr rfl
    | cons d ds =>
      rw [charsLe, charsLe]
      by_cases hcd : c = d
      · subst hcd
        rw [if_pos rfl, if_pos rfl]
        exact ih ds
      · have hne : c.toNat ≠ d.toNat := fun hh => hcd (charToNat_inj hh)
        rw [if_neg hcd, if_neg (fun hh => hcd hh.symm)]
        rcases Nat.lt_or_ge c.toNat d.toNat with h | h
        · exact Or.inl (by simpa using h)
        · exact Or.inr (by simp [Nat.lt_of_le_of_ne h (fun hh => hne hh.symm)])

theorem charsLe_trans :
    ∀ l1 l2 l3 : List Char, charsLe l1 l2 = true → charsLe l2 l3 = true →
      charsLe l1 l3 = true := by
  intro l1
  induction l1 with
  | nil => intro l2 l3 _ _; rfl
  | cons c cs ih =>
    intro l2 l3 h12 h23
    cases l2 with
    | nil => rw [charsLe] at h12; exact absurd h12 (by simp)
    | cons d ds =>
      cases l3 with
      | nil => rw [charsLe] at h23; exact absurd h23 (by simp)
      | cons e es =>
        rw [charsLe] at h12 h23 ⊢
        by_cases hcd : c = d
        · subst hcd
          rw [if_pos rfl] at h12
          by_cases hde : c = e
          · subst hde
            rw [if_pos rfl] at h23
            rw [if_pos rfl]
            exact ih ds es h12 h23
          · rw [if_neg hde] at h23
            rw [if_neg hde]
            exact h23
        · rw [if_neg hcd] at h12
          have hlt1 : c.toNat < d.toNat := by simpa using h12
          by_cases hde : d = e
          · by_cases hce : c = e
            · exact absurd (hce.trans hde.symm) hcd
            · rw [if_neg hce]
              have : c.toNat < e.toNat := hde ▸ hlt1
              simpa using this
          · rw [if_neg hde] at h23
            have hlt2 : d.toNat < e.toNat := by simpa using h23
            by_cases hce : c = e
            · subst hce
              exact absurd (Nat.lt_trans hlt1 hlt2) (by omega)
            · rw [if_neg hce]
              simp [Nat.lt_trans hlt1 hlt2]

theorem charsLe_antisymm :
    ∀ l1 l2 : List Char, charsLe l1 l2 = true → charsLe l2 l1 = true → l1 = l2 := by
  intro l1
  induction l1 with
  | nil =>
    intro l2 _ h21
    cases l2 with
    | nil => rfl
    | cons d ds => rw [charsLe] at h21; exact absurd h21 (by simp)
  | cons c cs ih =>
    intro l2 h12 h21
    cases l2 with
    | nil => rw [charsLe] at h12; exact absurd h12 (by simp)
    | cons d ds =>
      rw [charsLe] at h12 h21
      by_cases hcd : c = d
      · subst hcd
        rw [if_pos rfl] at h12 h21
        rw [ih ds h12 h21]
      · rw [if_neg hcd] at h12
        rw [if_neg (fun hh => hcd hh.symm)] at h21
        have h1 : c.toNat < d.toNat := by simpa using h12
        have h2 : d.toNat < c.toNat := by simpa using h21
        omega

theorem strLeb_total (a b : String) : strLeb a b = true ∨ strLeb b a = true :=
  charsLe_total a.data b.data

theorem strLeb_trans {a b c : String} (h1 : strLeb a b = true) (h2 : strLeb b c = true) :
    strLeb a c = true :=
  charsLe_trans a.data b.data c.data h1 h2

theorem strLeb_antisymm {a b : String} (h1 : strLeb a b = true) (h2 : strLeb b a = true) :
    a = b := by
  cases a; cases b
  exact congrArg String.mk (charsLe_antisymm _ _ h1 h2)

theorem insertSorted_mem (a x : String) (l : List String) :
    x ∈ insertSorted a l ↔ x = a ∨ x ∈ l := by
  induction l with
  | nil => simp [insertSorted]
  | cons b l ih =>
    rw [insertSorted]
    by_cases h : strLeb a b
    · rw [if_pos h]
      simp
    · rw [if_neg h]
      rw [List.mem_cons, ih, List.mem_cons]
      tauto

theorem insertSorted_pairwise (a : String) (l : List String)
    (hl : l.Pairwise (fun x y => strLeb x y = true)) :
    (insertSorted a l).Pairwise (fun x y => strLeb x y = true) := by
  induction l with
  | nil => simp [insertSorted]
  | cons b l ih =>
    rw [insertSorted]
    rw [List.pairwise_cons] at hl
    by_cases h : strLeb a b
    · rw [if_pos h]
      rw [List.pairwise_cons]
      refine ⟨?_, List.pairwise_cons.mpr hl⟩
      intro x hx
      rcases List.mem_cons.mp hx with rfl | hx
      · exact h
      · exact strLeb_trans h (hl.1 x hx)
    · rw [if_neg h]
      have hba : strLeb b a = true := (strLeb_total a b).resolve_left h
      rw [List.pairwise_cons]
      refine ⟨?_, ih hl.2⟩
      intro x hx
      rcases (insertSorted_mem a x l).mp hx with rfl | hx
      · exact hba
      · exact hl.1 x hx

theorem insertSorted_nodup (a : String) (l : List String) (ha : a ∉ l) (hl : l.Nodup) :
    (insertSorted a l).Nodup := by
  induction l with
  | nil => simp [insertSorted]
  | cons b l ih =>
    rw [insertSorted]
    rw [List.nodup_cons] at hl
    by_cases h : strLeb a b
    · rw [if_pos h]
      rw [List.nodup_cons]
      exact ⟨ha, List.nodup_cons.mpr hl⟩
    · rw [if_neg h]
      rw [List.nodup_cons]
      constructor
      · intro hb
        rcases (insertSorted_mem a b l).mp hb with rfl | hb
        · exact ha (List.mem_cons_self _ _)
        · exact hl.1 hb
      · exact ih (fun hh => ha (List.mem_cons_of_mem _ hh)) hl.2

theorem sortStrings_mem (x : String) (l : List String) : x ∈ sortStrings l ↔ x ∈ l := by
  induction l with
  | nil => simp [sortStrings]
  | cons b l ih =>
    show x ∈ insertSorted b (sortStrings l) ↔ _
    rw [insertSorted_mem, ih, List.mem_cons]

theorem sortStrings_pairwise (l : List String) :
    (sortStrings l).Pairwise (fun x y => strLeb x y = true) := by
  induction l with
  | nil => simp [sortStrings]
  | cons b l ih => exact insertSorted_pairwise b (sortStrings l) ih

theorem sortStrings_nodup (l : List String) (hl : l.Nodup) : (sortStrings l).Nodup := by
  induction l with
  | nil => simp [sortStrings]
  | cons b l ih =>
    rw [List.nodup_cons] at hl
    exact insertSorted_nodup b (sortStrings l) (fun hh => hl.1 ((sortStrings_mem b l).mp hh))
      (ih hl.2)

theorem sorted_nodup_eq :
    ∀ l1 l2 : List String, l1.Pairwise (fun x y => strLeb x y = true) →
      l2.Pairwise (fun x y => strLeb x y = true) → l1.Nodup → l2.Nodup →
      (∀ x, x ∈ l1 ↔ x ∈ l2) → l1 = l2 := by
  intro l1
  induction l1 with
  | nil =>
    intro l2 _ _ _ _ hmem
    cases l2 with
    | nil => rfl
    | cons b l2 => exact absurd ((hmem b).mpr (List.mem_cons_self _ _)) (by simp)
  | cons a l1 ih =>
    intro l2 s1 s2 n1 n2 hmem
    cases l2 with
    | nil => exact absurd ((hmem a).mp (List.mem_cons_self _ _)) (by simp)
    | cons b l2 =>
      rw [List.pairwise_cons] at s1 s2
      rw [List.nodup_cons] at n1 n2
      have hab : a = b := by
        rcases List.mem_cons.mp ((hmem a).mp (List.mem_cons_self _ _)) with h | h
        · exact h
        · rcases List.mem_cons.mp ((hmem b).mpr (List.mem_cons_self _ _)) with h2 | h2
          · exact h2.symm
          · exact strLeb_antisymm (s1.1 b h2) (s2.1 a h)
      subst hab
      have htail : ∀ x, x ∈ l1 ↔ x ∈ l2 := by
        intro x
        constructor
        · intro hx
          rcases List.mem_cons.mp ((hmem x).mp (List.mem_cons_of_mem _ hx)) with rfl | h
          · exact absurd hx n1.1
          · exact h
        · intro hx
          rcases List.mem_cons.mp ((hmem x).mpr (List.mem_cons_of_mem _ hx)) with rfl | h
          · exact absurd hx n2.1
          · exact h
      rw [ih l2 s1.2 s2.2 n1.2 n2.2 htail]

theorem sortStrings_eq_of_mem (s1 s2 : List String) (h1 : s1.Nodup) (h2 : s2.Nodup)
    (hmem : ∀ x, x ∈ s1 ↔ x ∈ s2) : sortStrings s1 = sortStrings s2 :=
  sorted_nodup_eq _ _ (sortStrings_pairwise s1) (sortStrings_pairwise s2)
    (sortStrings_nodup s1 h1) (sortStrings_nodup s2 h2)
    (fun x => by rw [sortStrings_mem, sortStrings_mem]; exact hmem x)

/-! ### State-map lemmas (for C5) -/

theorem addNext_lookup_self (m : List (List String × List String)) (key : List String)
    (nx : Option String) :
    (addNext m key nx).lookup key = some (updateVal (m.lookup key) nx) := by
  induction m with
  | nil => simp [addNext, List.lookup, updateVal]
  | cons p rest ih =>
    obtain ⟨k, s⟩ := p
    rw [addNext]
    by_cases hk : k = key
    · subst hk
      simp [List.lookup, updateVal]
    · rw [if_neg hk]
      rw [lookup_cons_ne _ _ (fun hh => hk hh.symm), lookup_cons_ne _ _ (fun hh => hk hh.symm)]
      exact ih

theorem addNext_lookup_other (m : List (List String × List String)) (key k' : List String)
    (nx : Option String) (h : k' ≠ key) :
    (addNext m key nx).lookup k' = m.lookup k' := by
  induction m with
  | nil =>
    have hbeq : (k' == key) = false := by simpa using h
    simp [addNext, List.lookup, hbeq]
  | cons p rest ih =>
    obtain ⟨k, s⟩ := p
    rw [addNext]
    by_cases hk : k = key
    · subst hk
      rw [if_pos rfl]
      rw [lookup_cons_ne _ _ h, lookup_cons_ne _ _ h]
    · rw [if_neg hk]
      by_cases hk2 : k' = k
      · subst hk2
        rw [lookup_cons_self, lookup_cons_self]
      · rw [lookup_cons_ne _ _ hk2, lookup_cons_ne _ _ hk2]
        exact ih

theorem addNext_keys (m : List (List String × List String)) (key : List String)
    (nx : Option String) :
    (addNext m key nx).map Prod.fst
      = if (m.lookup key).isSome then m.map Prod.fst else m.map Prod.fst ++ [key] := by
  induction m with
  | nil => simp [addNext, List.lookup]
  | cons p rest ih =>
    obtain ⟨k, s⟩ := p
    rw [addNext]
    by_cases hk : k = key
    · subst hk
      rw [lookup_cons_self]
      simp
    · rw [if_neg hk]
      rw [lookup_cons_ne _ _ (fun hh => hk hh.symm)]
      by_cases hs : (rest.lookup key).isSome
      · rw [if_pos hs]
        simp only [List.map_cons]
        rw [ih, if_pos hs]
      · rw [if_neg hs]
        simp only [List.map_cons]
        rw [ih, if_neg hs]
        rfl

theorem addNext_keys_nodup (m : List (List String × List String)) (key : List String)
    (nx : Option String) (h : (m.map Prod.fst).Nodup) :
    ((addNext m key nx).map Prod.fst).Nodup := by
  rw [addNext_keys]
  by_cases hs : (m.lookup key).isSome
  · rw [if_pos hs]; exact h
  · rw [if_neg hs]
    rw [List.nodup_append]
    refine ⟨h, List.nodup_singleton key, ?_⟩
    intro x hx hx2
    have hx3 : x = key := by simpa using hx2
    rw [hx3] at hx
    exact hs (mem_keys_lookup_isSome hx)

theorem specNexts_append (P Q : List (List String)) (k : List String) :
    specNexts (P ++ Q) k = specNexts P k ++ specNexts Q k :=
  List.filterMap_append ..

theorem filterMap_one {α β : Type} (f : α → Option β) (a : α) :
    List.filterMap f [a] = (f a).toList := by
  cases h : f a <;> simp [List.filterMap_cons, h]

theorem specNexts_single (q : List String) (k : List String) :
    specNexts [q] k = if q.take k.length = k then (q.get? k.length).toList else [] := by
  unfold specNexts
  rw [filterMap_one]
  by_cases h : q.take k.length = k
  · rw [if_pos h, if_pos h]
  · rw [if_neg h, if_neg h]
    rfl

theorem specNexts_nil (k : List String) : specNexts [] k = [] := rfl

theorem addPath_eq (path : List String)
    (st : List (List String × List String) × List (List String)) :
    addPath path st = (List.range (path.length + 1)).foldl
      (fun st i =>
        if pyTruthy (path.get? i) then (addNext st.1 (path.take i) (path.get? i), st.2)
        else
          (addNext st.1 (path.take i) none,
           if path.take i ∈ st.2 then st.2 else st.2 ++ [path.take i])) st := rfl

theorem addPathFold_lookup (path : List String) :
    ∀ (I : List Nat) (st : List (List String × List String) × List (List String))
      (k : List String), I.Nodup → (∀ i ∈ I, i ≤ path.length) →
    ((I.foldl (fun st i =>
        if pyTruthy (path.get? i) then (addNext st.1 (path.take i) (path.get? i), st.2)
        else
          (addNext st.1 (path.take i) none,
           if path.take i ∈ st.2 then st.2 else st.2 ++ [path.take i])) st).1.lookup k)
      = if k.length ∈ I ∧ path.take k.length = k then
          some (updateVal (st.1.lookup k) (effNext (path.get? k.length)))
        else st.1.lookup k := by
  intro I
  induction I with
  | nil =>
    intro st k _ _
    simp
  | cons i I ih =>
    intro st k hnd hle
    rw [List.foldl_cons]
    rw [List.nodup_cons] at hnd
    have hile : i ≤ path.length := hle i (List.mem_cons_self _ _)
    have htl : (path.take i).length = i := by
      rw [List.length_take]
      omega
    have hstep1 : ((if pyTruthy (path.get? i) then
            (addNext st.1 (path.take i) (path.get? i), st.2)
          else
            (addNext st.1 (path.take i) none,
             if path.take i ∈ st.2 then st.2 else st.2 ++ [path.take i])) :
            List (List String × List String) × List (List String)).1
          = addNext st.1 (path.take i) (effNext (path.get? i)) := by
      unfold effNext
      by_cases hpt : pyTruthy (path.get? i) = true
      · rw [if_pos hpt, if_pos hpt]
      · rw [if_neg hpt, if_neg hpt]
    rw [ih _ k hnd.2 (fun j hj => hle j (List.mem_cons_of_mem _ hj))]
    by_cases hk : k = path.take i
    · subst hk
      rw [htl]
      rw [if_neg (fun hc => hnd.1 hc.1)]
      rw [hstep1, addNext_lookup_self]
      rw [if_pos (⟨List.mem_cons_self i I, rfl⟩ :
        i ∈ i :: I ∧ path.take i = path.take i)]
    · by_cases hc : k.length ∈ I ∧ path.take k.length = k
      · rw [if_pos hc, hstep1, addNext_lookup_other _ _ _ _ hk,
          if_pos ⟨List.mem_cons_of_mem _ hc.1, hc.2⟩]
      · rw [if_neg hc, hstep1, addNext_lookup_other _ _ _ _ hk]
        have hc2 : ¬ (k.length ∈ i :: I ∧ path.take k.length = k) := by
          rintro ⟨hmem, htake⟩
          rcases List.mem_cons.mp hmem with heq | hmem2
          · exact hk (by rw [← htake, heq])
          · exact hc ⟨hmem2, htake⟩
        rw [if_neg hc2]

theorem addPath_lookup (path : List String)
    (st : List (List String × List String) × List (List String)) (k : List String) :
    (addPath path st).1.lookup k
      = if path.take k.length = k then
          some (updateVal (st.1.lookup k) (effNext (path.get? k.length)))
        else st.1.lookup k := by
  rw [addPath_eq, addPathFold_lookup path _ st k (List.nodup_range _)
    (fun i hi => by have := List.mem_range.mp hi; omega)]
  by_cases h : path.take k.length = k
  · have hlen : k.length ≤ path.length := by
      have h2 := congrArg List.length h
      rw [List.length_take] at h2
      omega
    rw [if_pos ⟨List.mem_range.mpr (by omega), h⟩, if_pos h]
  · rw [if_neg (fun hc => h hc.2), if_neg h]

theorem addPathFold_terms (path : List String) :
    ∀ (I : List Nat) (st : List (List String × List String) × List (List String))
      (k : List String), (∀ i ∈ I, i ≤ path.length) →
    (k ∈ (I.foldl (fun st i =>
        if pyTruthy (path.get? i) then (addNext st.1 (path.take i) (path.get? i), st.2)
        else
          (addNext st.1 (path.take i) none,
           if path.take i ∈ st.2 then st.2 else st.2 ++ [path.take i])) st).2
      ↔ k ∈ st.2 ∨ ∃ i ∈ I, pyTruthy (path.get? i) = false ∧ k = path.take i) := by
  intro I
  induction I with
  | nil =>
    intro st k _
    simp
  | cons i I ih =>
    intro st k hle
    rw [List.foldl_cons]
    rw [ih _ k (fun j hj => hle j (List.mem_cons_of_mem _ hj))]
    by_cases hpt : pyTruthy (path.get? i) = true
    · rw [if_pos hpt]
      constructor
      · rintro (h | ⟨j, hj, hfal, hk⟩)
        · exact Or.inl h
        · exact Or.inr ⟨j, List.mem_cons_of_mem _ hj, hfal, hk⟩
      · rintro (h | ⟨j, hj, hfal, hk⟩)
        · exact Or.inl h
        · rcases List.mem_cons.mp hj with rfl | hj2
          · rw [hfal] at hpt
            exact absurd hpt (by simp)
          · exact Or.inr ⟨j, hj2, hfal, hk⟩
    · rw [if_neg hpt]
      have hfali : pyTruthy (path.get? i) = false := by
        rcases Bool.eq_false_or_eq_true (pyTruthy (path.get? i)) with h | h
        · exact absurd h hpt
        · exact h
      have hmem2 : ∀ l : List (List String),
          k ∈ (if path.take i ∈ l then l else l ++ [path.take i])
            ↔ k ∈ l ∨ k = path.take i := by
        intro l
        by_cases hp : path.take i ∈ l
        · rw [if_pos hp]
          constructor
          · exact Or.inl
          · rintro (h | rfl)
            · exact h
            · exact hp
        · rw [if_neg hp]
          simp [List.mem_append]
      rw [hmem2 st.2]
      constructor
      · rintro ((h | rfl) | ⟨j, hj, hfal, hk⟩)
        · exact Or.inl h
        · exact Or.inr ⟨i, List.mem_cons_self _ _, hfali, rfl⟩
        · exact Or.inr ⟨j, List.mem_cons_of_mem _ hj, hfal, hk⟩
      · rintro (h | ⟨j, hj, hfal, hk⟩)
        · exact Or.inl (Or.inl h)
        · rcases List.mem_cons.mp hj with rfl | hj2
          · exact Or.inl (Or.inr hk)
          · exact Or.inr ⟨j, hj2, hfal, hk⟩

theorem addPath_terms (path : List String)
    (st : List (List String × List String) × List (List String)) (k : List String) :
    k ∈ (addPath path st).2
      ↔ k ∈ st.2
        ∨ (path.take k.length = k ∧ pyTruthy (path.get? k.length) = false) := by
  rw [addPath_eq, addPathFold_terms path _ st k
    (fun i hi => by have := List.mem_range.mp hi; omega)]
  constructor
  · rintro (h | ⟨i, hi, hfal, rfl⟩)
    · exact Or.inl h
    · have hile : i ≤ path.length := by
        have := List.mem_range.mp hi
        omega
      have hlen : (path.take i).length = i := by
        rw [List.length_take]
        omega
      rw [hlen]
      exact Or.inr ⟨rfl, hfal⟩
  · rintro (h | ⟨htake, hfal⟩)
    · exact Or.inl h
    · have hlen : k.length ≤ path.length := by
        by_contra hc
        push_neg at hc
        have h2 : path.take k.length = path := List.take_of_length_le (Nat.le_of_lt hc)
        rw [h2] at htake
        have h3 := congrArg List.length htake
        omega
      exact Or.inr ⟨k.length, List.mem_range.mpr (by omega), hfal, htake.symm⟩

theorem addPath_keys_nodup (path : List String)
    (st : List (List String × List String) × List (List String))
    (h : (st.1.map Prod.fst).Nodup) : ((addPath path st).1.map Prod.fst).Nodup := by
  rw [addPath_eq]
  generalize List.range (path.length + 1) = I
  induction I generalizing st with
  | nil => exact h
  | cons i I ih =>
    rw [List.foldl_cons]
    apply ih
    by_cases hpt : pyTruthy (path.get? i) = true
    · rw [if_pos hpt]
      exact addNext_keys_nodup _ _ _ h
    · rw [if_neg hpt]
      exact addNext_keys_nodup _ _ _ h

theorem dedupAux_snoc {α : Type} [DecidableEq α] (L : List α) (seen : List α) (a : α) :
    firstDedupAux (L ++ [a]) seen
      = if a ∈ seen ∨ a ∈ L then firstDedupAux L seen else firstDedupAux L seen ++ [a] := by
  induction L generalizing seen with
  | nil =>
    by_cases h : a ∈ seen
    · simp [firstDedupAux, h]
    · simp [firstDedupAux, h]
  | cons x L ih =>
    rw [List.cons_append, firstDedupAux]
    by_cases hx : x ∈ seen
    · rw [if_pos hx, ih seen, firstDedupAux, if_pos hx]
      have hcond : (a ∈ seen ∨ a ∈ L) ↔ (a ∈ seen ∨ a ∈ x :: L) := by
        constructor
        · rintro (h | h)
          · exact Or.inl h
          · exact Or.inr (List.mem_cons_of_mem _ h)
        · rintro (h | h)
          · exact Or.inl h
          · rcases List.mem_cons.mp h with rfl | h2
            · exact Or.inl hx
            · exact Or.inr h2
      by_cases ha : a ∈ seen ∨ a ∈ L
      · rw [if_pos ha, if_pos (hcond.mp ha)]
      · rw [if_neg ha, if_neg (fun hh => ha (hcond.mpr hh))]
    · rw [if_neg hx, ih (x :: seen), firstDedupAux, if_neg hx]
      have hcond : (a ∈ x :: seen ∨ a ∈ L) ↔ (a ∈ seen ∨ a ∈ x :: L) := by
        simp only [List.mem_cons]
        tauto
      by_cases ha : a ∈ x :: seen ∨ a ∈ L
      · rw [if_pos ha, if_pos (hcond.mp ha)]
      · rw [if_neg ha, if_neg (fun hh => ha (hcond.mpr hh)), List.cons_append]

theorem dedup_snoc {α : Type} [DecidableEq α] (L : List α) (a : α) :
    firstDedup (L ++ [a]) = if a ∈ L then firstDedup L else firstDedup L ++ [a] := by
  unfold firstDedup
  rw [dedupAux_snoc]
  by_cases h : a ∈ L
  · rw [if_pos (Or.inr h), if_pos h]
  · rw [if_neg (by simpa using h), if_neg h]

theorem updateVal_dedup (L : List String) (nx : Option String) :
    updateVal (some (firstDedup L)) nx = firstDedup (L ++ nx.toList) := by
  cases nx with
  | none => simp [updateVal, addNextVal]
  | some a =>
    show addNextVal (firstDedup L) (some a) = firstDedup (L ++ [a])
    rw [addNextVal, dedup_snoc]
    by_cases h : a ∈ L
    · rw [if_pos ((mem_firstDedup L a).mpr h), if_pos h]
    · rw [if_neg (fun hh => h ((mem_firstDedup L a).mp hh)), if_neg h]

theorem updateVal_none (nx : Option String) :
    updateVal none nx = firstDedup nx.toList := by
  cases nx <;> simp [updateVal, addNextVal, firstDedup, firstDedupAux]

theorem updateVal_effNext_some (L : List String) (nx : Option String) :
    updateVal (some (firstDedup L)) (effNext nx)
      = firstDedup (L ++ nx.toList.filter (fun a => decide (a ≠ ""))) := by
  cases nx with
  | none => simp [effNext, pyTruthy, updateVal, addNextVal]
  | some a =>
    by_cases h : a = ""
    · subst h
      simp [effNext, pyTruthy, updateVal, addNextVal]
    · have h1 : effNext (some a) = some a := by simp [effNext, pyTruthy, h]
      have h2 : (some a).toList.filter (fun a => decide (a ≠ "")) = [a] := by simp [h]
      rw [h1, h2]
      exact updateVal_dedup L (some a)

theorem updateVal_none_effNext (nx : Option String) :
    updateVal none (effNext nx)
      = firstDedup (nx.toList.filter (fun a => decide (a ≠ ""))) := by
  cases nx with
  | none => simp [effNext, pyTruthy, updateVal, addNextVal, firstDedup, firstDedupAux]
  | some a =>
    by_cases h : a = ""
    · subst h
      simp [effNext, pyTruthy, updateVal, addNextVal, firstDedup, firstDedupAux]
    · simp [effNext, pyTruthy, h, updateVal, addNextVal, firstDedup, firstDedupAux]

theorem specNexts_nil_of_no_pref (P : List (List String)) (k : List String)
    (h : ¬ ∃ q ∈ P, q.take k.length = k) : specNexts P k = [] := by
  unfold specNexts
  rw [List.filterMap_eq_nil_iff]
  intro q hq
  rw [if_neg (fun hc => h ⟨q, hq, hc⟩)]

theorem buildFold_inv (P : List (List String)) :
    ((P.foldl (fun st p => addPath p st) ([], [])).1.map Prod.fst).Nodup ∧
    (∀ k, (P.foldl (fun st p => addPath p st) ([], [])).1.lookup k
        = if ∃ q ∈ P, q.take k.length = k then
            some (firstDedup ((specNexts P k).filter (fun a => decide (a ≠ ""))))
          else none) ∧
    (∀ k, k ∈ (P.foldl (fun st p => addPath p st) ([], [])).2
        ↔ ∃ q ∈ P, q.take k.length = k ∧ pyTruthy (q.get? k.length) = false) := by
  induction P using List.reverseRecOn with
  | nil =>
    refine ⟨by simp, fun k => by simp [List.lookup], fun k => by simp⟩
  | append_singleton P p ih =>
    obtain ⟨ihnd, ihlk, ihtm⟩ := ih
    have hfold : (P ++ [p]).foldl (fun st p => addPath p st) ([], [])
        = addPath p (P.foldl (fun st p => addPath p st) ([], [])) := by
      rw [List.foldl_append, List.foldl_cons, List.foldl_nil]
    refine ⟨?_, ?_, ?_⟩
    · rw [hfold]
      exact addPath_keys_nodup _ _ ihnd
    · intro k
      rw [hfold, addPath_lookup, ihlk k]
      by_cases hp : p.take k.length = k
      · rw [if_pos hp]
        have hsn : (specNexts (P ++ [p]) k).filter (fun a => decide (a ≠ ""))
            = (specNexts P k).filter (fun a => decide (a ≠ ""))
              ++ (p.get? k.length).toList.filter (fun a => decide (a ≠ "")) := by
          rw [specNexts_append, specNexts_single, if_pos hp, List.filter_append]
        rw [if_pos (⟨p, List.mem_append_right _ (List.mem_singleton_self p), hp⟩ :
          ∃ q ∈ P ++ [p], q.take k.length = k), hsn]
        by_cases hq : ∃ q ∈ P, q.take k.length = k
        · rw [if_pos hq, updateVal_effNext_some]
        · rw [if_neg hq, specNexts_nil_of_no_pref P k hq, List.filter_nil,
            List.nil_append, updateVal_none_effNext]
      · rw [if_neg hp]
        have hiff : (∃ q ∈ P ++ [p], q.take k.length = k)
            ↔ (∃ q ∈ P, q.take k.length = k) := by
          constructor
          · rintro ⟨q, hq, hqt⟩
            rcases List.mem_append.mp hq with h | h
            · exact ⟨q, h, hqt⟩
            · have hqp : q = p := by simpa using h
              exact absurd (hqp ▸ hqt) hp
          · rintro ⟨q, hq, hqt⟩
            exact ⟨q, List.mem_append_left _ hq, hqt⟩
        have hsn : specNexts (P ++ [p]) k = specNexts P k := by
          rw [specNexts_append, specNexts_single, if_neg hp, List.append_nil]
        rw [hsn]
        by_cases hq : ∃ q ∈ P, q.take k.length = k
        · rw [if_pos hq, if_pos (hiff.mpr hq)]
        · rw [if_neg hq, if_neg (fun hh => hq (hiff.mp hh))]
    · intro k
      rw [hfold, addPath_terms, ihtm k]
      constructor
      · rintro (⟨q, hq, htk, hfal⟩ | ⟨htk, hfal⟩)
        · exact ⟨q, List.mem_append_left _ hq, htk, hfal⟩
        · exact ⟨p, List.mem_append_right _ (by simp), htk, hfal⟩
      · rintro ⟨q, hq, htk, hfal⟩
        rcases List.mem_append.mp hq with h | h
        · exact Or.inl ⟨q, h, htk, hfal⟩
        · have hqp : q = p := by simpa using h
          subst hqp
          exact Or.inr ⟨htk, hfal⟩

/-- C5 (amended): for at most `MAX_PATHS` unique paths — exactly the portion
`build_execution_states` consumes — each emitted state's `available_next` is the
sorted first-occurrence union, over paths with exact prefix `completed_actions`,
of the *truthy* next actions at position `len(completed_actions)` (Python's
`if next_action:` treats the empty-string action id like `None`), and
`can_terminate` holds exactly when some such path ends at the prefix or has the
empty-string action id there. -/
theorem c5_state_merge (paths : List (List String)) (hlen : paths.length ≤ MAX_PATHS) :
    ∀ st ∈ buildExecutionStates paths,
      st.available_next
        = sortStrings (firstDedup ((specNexts paths st.completed_actions).filter
            (fun a => decide (a ≠ "")))) ∧
      (st.can_terminate = true ↔
        st.completed_actions ∈ paths ∨ "" ∈ specNexts paths st.completed_actions) := by
  intro st hst
  have htake : paths.take MAX_PATHS = paths := List.take_of_length_le hlen
  obtain ⟨hnd, hlk, htm⟩ := buildFold_inv paths
  simp only [buildExecutionStates, buildStateMap, htake] at hst
  obtain ⟨ks, hkmem, rfl⟩ := List.mem_map.mp hst
  obtain ⟨k, v⟩ := ks
  refine ⟨?_, ?_⟩
  · show sortStrings v
        = sortStrings (firstDedup ((specNexts paths k).filter (fun a => decide (a ≠ ""))))
    have hv : (paths.foldl (fun st p => addPath p st) ([], [])).1.lookup k = some v :=
      lookup_eq_some_of_mem hnd hkmem
    rw [hlk k] at hv
    by_cases hq : ∃ q ∈ paths, q.take k.length = k
    · rw [if_pos hq] at hv
      rw [Option.some.injEq] at hv
      rw [← hv]
    · rw [if_neg hq] at hv
      exact absurd hv (by simp)
  · show decide (k ∈ (paths.foldl (fun st p => addPath p st) ([], [])).2) = true
        ↔ k ∈ paths ∨ "" ∈ specNexts paths k
    rw [decide_eq_true_eq, htm k]
    constructor
    · rintro ⟨q, hq, htk, hfal⟩
      cases hget : q.get? k.length with
      | none =>
        have hqlen : q.length ≤ k.length := List.get?_eq_none.mp hget
        have hq2 : q.take k.length = q := List.take_of_length_le hqlen
        rw [hq2] at htk
        exact Or.inl (htk ▸ hq)
      | some a =>
        have ha : a = "" := by
          rw [hget] at hfal
          simpa [pyTruthy] using hfal
        subst ha
        refine Or.inr ?_
        unfold specNexts
        rw [List.mem_filterMap]
        exact ⟨q, hq, by rw [if_pos htk, hget]⟩
    · rintro (hk | hne)
      · refine ⟨k, hk, List.take_length k, ?_⟩
        rw [List.get?_eq_none.mpr (Nat.le_refl _)]
        rfl
      · unfold specNexts at hne
        rw [List.mem_filterMap] at hne
        obtain ⟨q, hq, heq⟩ := hne
        by_cases htk : q.take k.length = k
        · rw [if_pos htk] at heq
          refine ⟨q, hq, htk, ?_⟩
          rw [heq]
          decide
        · rw [if_neg htk] at heq
          exact absurd heq (by simp)

theorem c5_state_merge_witness :
    ([["a", ""]] : List (List String)).length ≤ MAX_PATHS ∧
    ∀ st ∈ buildExecutionStates [["a", ""]],
      st.available_next
        = sortStrings (firstDedup ((specNexts [["a", ""]] st.completed_actions).filter
            (fun a => decide (a ≠ "")))) ∧
      (st.can_terminate = true ↔
        st.completed_actions ∈ [["a", ""]]
          ∨ "" ∈ specNexts [["a", ""]] st.completed_actions) :=
  ⟨by decide, c5_state_merge [["a", ""]] (by decide)⟩

/-! ### C3: BFS lemmas for `find_matching_join` -/

theorem bfsVisit_prefix (edges : List Edge) (avoid : List String) :
    ∀ (fuel : Nat) (q v : List String), ∃ w, bfsVisit edges avoid fuel q v = v ++ w := by
  intro fuel
  induction fuel with
  | zero => intro q v; exact ⟨[], by simp [bfsVisit]⟩
  | succ fuel ih =>
    intro q v
    cases q with
    | nil => exact ⟨[], by simp [bfsVisit]⟩
    | cons nid queue =>
      rw [bfsVisit]
      by_cases h : nid ∈ v ∨ nid ∈ avoid
      · rw [if_pos h]
        exact ih queue v
      · rw [if_neg h]
        obtain ⟨w, hw⟩ := ih (queue ++ (outgoingOf edges nid).map Prod.fst) (v ++ [nid])
        exact ⟨[nid] ++ w, by rw [hw, List.append_assoc]⟩

theorem bfsVisit_visited_sub (edges : List Edge) (avoid : List String) (fuel : Nat)
    (q v : List String) : v ⊆ bfsVisit edges avoid fuel q v := by
  obtain ⟨w, hw⟩ := bfsVisit_prefix edges avoid fuel q v
  rw [hw]
  exact List.subset_append_left v w

theorem bfsVisit_sound (edges : List Edge) (avoid : List String) (R : String → Prop)
    (hR : ∀ a b, R a → a ∉ avoid → stepTo edges a b → b ∉ avoid → R b) :
    ∀ (fuel : Nat) (q v : List String),
      (∀ n ∈ q, n ∉ avoid → R n) → (∀ n ∈ v, R n ∧ n ∉ avoid) →
      ∀ x ∈ bfsVisit edges avoid fuel q v, R x ∧ x ∉ avoid := by
  intro fuel
  induction fuel with
  | zero =>
    intro q v _ hv x hx
    exact hv x (by simpa [bfsVisit] using hx)
  | succ fuel ih =>
    intro q v hq hv x hx
    cases q with
    | nil => exact hv x (by simpa [bfsVisit] using hx)
    | cons nid queue =>
      rw [bfsVisit] at hx
      by_cases h : nid ∈ v ∨ nid ∈ avoid
      · rw [if_pos h] at hx
        exact ih queue v (fun n hn => hq n (List.mem_cons_of_mem _ hn)) hv x hx
      · rw [if_neg h] at hx
        push_neg at h
        have hnidR : R nid := hq nid (List.mem_cons_self _ _) h.2
        refine ih _ _ ?_ ?_ x hx
        · intro n hn hnav
          rcases List.mem_append.mp hn with hn | hn
          · exact hq n (List.mem_cons_of_mem _ hn) hnav
          · exact hR nid n hnidR h.2 hn hnav
        · intro n hn
          rcases List.mem_append.mp hn with hn | hn
          · exact hv n hn
          · have hneq : n = nid := by simpa using hn
            exact hneq ▸ ⟨hnidR, h.2⟩

theorem length_filter_split {α : Type} (l : List α) (p q : α → Bool) :
    (l.filter p).length
      = (l.filter (fun a => p a && q a)).length
        + (l.filter (fun a => p a && !q a)).length := by
  induction l with
  | nil => simp
  | cons a l ih =>
    cases hp : p a <;> cases hq : q a <;>
      simp [List.filter_cons, hp, hq, ih] <;> omega

theorem bfsVisit_closed (edges : List Edge) (avoid : List String) :
    ∀ (fuel : Nat) (q v : List String),
      q.length + (edges.filter (fun e => decide (e.src ∉ v))).length < fuel →
      (∀ a ∈ v, ∀ b, stepTo edges a b → b ∈ avoid ∨ b ∈ v ∨ b ∈ q) →
      ((∀ n ∈ q, n ∉ avoid → n ∈ bfsVisit edges avoid fuel q v) ∧
       ∀ a ∈ bfsVisit edges avoid fuel q v, ∀ b, stepTo edges a b →
         b ∈ avoid ∨ b ∈ bfsVisit edges avoid fuel q v) := by
  intro fuel
  induction fuel with
  | zero =>
    intro q v hfuel _
    exact absurd hfuel (Nat.not_lt_zero _)
  | succ fuel ih =>
    intro q v hfuel hinv
    cases q with
    | nil =>
      constructor
      · intro n hn
        simp at hn
      · intro a ha b hst
        rw [bfsVisit] at ha ⊢
        rcases hinv a ha b hst with h | h | h
        · exact Or.inl h
        · exact Or.inr h
        · simp at h
    | cons nid queue =>
      rw [bfsVisit]
      by_cases hc : nid ∈ v ∨ nid ∈ avoid
      · rw [if_pos hc]
        have hfuel2 : queue.length
            + (edges.filter (fun e => decide (e.src ∉ v))).length < fuel := by
          simp only [List.length_cons] at hfuel
          omega
        have hinv2 : ∀ a ∈ v, ∀ b, stepTo edges a b → b ∈ avoid ∨ b ∈ v ∨ b ∈ queue := by
          intro a ha b hst
          rcases hinv a ha b hst with h | h | h
          · exact Or.inl h
          · exact Or.inr (Or.inl h)
          · rcases List.mem_cons.mp h with rfl | h2
            · rcases hc with h3 | h3
              · exact Or.inr (Or.inl h3)
              · exact Or.inl h3
            · exact Or.inr (Or.inr h2)
        obtain ⟨ih1, ih2⟩ := ih queue v hfuel2 hinv2
        refine ⟨?_, ih2⟩
        intro n hn hnav
        rcases List.mem_cons.mp hn with rfl | h2
        · rcases hc with h3 | h3
          · exact bfsVisit_visited_sub edges avoid fuel queue v h3
          · exact absurd h3 hnav
        · exact ih1 n h2 hnav
      · rw [if_neg hc]
        push_neg at hc
        have hout : (outgoingOf edges nid).length
            = (edges.filter (fun e => decide (e.src = nid))).length := by
          simp [outgoingOf]
        have hsplit := length_filter_split edges (fun e => decide (e.src ∉ v))
          (fun e => decide (e.src = nid))
        have h1 : edges.filter (fun e => decide (e.src ∉ v) && decide (e.src = nid))
            = edges.filter (fun e => decide (e.src = nid)) := by
          apply List.filter_congr
          intro e _
          by_cases he : e.src = nid
          · simp [he, hc.1]
          · simp [he]
        have h2 : edges.filter (fun e => decide (e.src ∉ v) && !decide (e.src = nid))
            = edges.filter (fun e => decide (e.src ∉ v ++ [nid])) := by
          apply List.filter_congr
          intro e _
          by_cases he : e.src = nid
          · simp [he, List.mem_append]
          · by_cases hev : e.src ∈ v
            · simp [he, hev, List.mem_append]
            · simp [he, hev, List.mem_append]
        have hfuel2 : (queue ++ (outgoingOf edges nid).map Prod.fst).length
            + (edges.filter (fun e => decide (e.src ∉ v ++ [nid]))).length < fuel := by
          rw [List.length_append, List.length_map, hout]
          rw [h1, h2] at hsplit
          simp only [List.length_cons] at hfuel
          omega
        have hinv2 : ∀ a ∈ v ++ [nid], ∀ b, stepTo edges a b →
            b ∈ avoid ∨ b ∈ v ++ [nid]
              ∨ b ∈ queue ++ (outgoingOf edges nid).map Prod.fst := by
          intro a ha b hst
          rcases List.mem_append.mp ha with ha | ha
          · rcases hinv a ha b hst with h | h | h
            · exact Or.inl h
            · exact Or.inr (Or.inl (List.mem_append_left _ h))
            · rcases List.mem_cons.mp h with rfl | h2
              · exact Or.inr (Or.inl (List.mem_append_right _ (by simp)))
              · exact Or.inr (Or.inr (List.mem_append_left _ h2))
          · have haeq : a = nid := by simpa using ha
            subst haeq
            exact Or.inr (Or.inr (List.mem_append_right _ hst))
        obtain ⟨ih1, ih2⟩ := ih _ _ hfuel2 hinv2
        refine ⟨?_, ih2⟩
        intro n hn hnav
        rcases List.mem_cons.mp hn with rfl | h2
        · exact bfsVisit_visited_sub edges avoid fuel _ _ (List.mem_append_right _ (by simp))
        · exact ih1 n (List.mem_append_left _ h2) hnav

theorem bfsVisit_complete (edges : List Edge) (avoid : List String) (fuel : Nat)
    (q : List String) (hfuel : q.length + edges.length < fuel) :
    ∀ s ∈ q, ∀ x, AvoidReach edges avoid s x → x ∈ bfsVisit edges avoid fuel q [] := by
  have hflt : (edges.filter (fun e => decide (e.src ∉ ([] : List String)))).length
      ≤ edges.length := List.length_filter_le _ _
  obtain ⟨hc1, hc2⟩ := bfsVisit_closed edges avoid fuel q [] (by omega)
    (by intro a ha; simp at ha)
  intro s hs x hx
  obtain ⟨hsav, hreach⟩ := hx
  have hsmem : s ∈ bfsVisit edges avoid fuel q [] := hc1 s hs hsav
  induction hreach with
  | refl => exact hsmem
  | tail hab hbc ih =>
    rcases hc2 _ ih _ hbc.1 with h | h
    · exact absurd h hbc.2.2
    · exact h

theorem branchSet_mem (edges : List Edge) (splitRid t x : String) :
    x ∈ bfsVisit edges [splitRid] (edges.length + 2) [t] []
      ↔ AvoidReach edges [splitRid] t x := by
  constructor
  · intro hx
    have hsound := bfsVisit_sound edges [splitRid] (AvoidReach edges [splitRid] t)
      (fun a b hra hana hst hbna => ⟨hra.1, hra.2.tail ⟨hst, hana, hbna⟩⟩)
      (edges.length + 2) [t] []
      (fun n hn hna => by
        have hnt : n = t := by simpa using hn
        subst hnt
        exact ⟨hna, Relation.ReflTransGen.refl⟩)
      (by intro n hn; simp at hn)
    exact (hsound x hx).1
  · intro hx
    exact bfsVisit_complete edges [splitRid] (edges.length + 2) [t]
      (by rw [List.length_singleton]; omega) t (by simp) x hx

theorem bfsFindJoin_eq_find (edges : List Edge) (pred : String → Bool) :
    ∀ (fuel : Nat) (q v : List String), (∀ a ∈ v, pred a = false) →
      bfsFindJoin edges pred fuel q v = (bfsVisit edges [] fuel q v).find? pred := by
  intro fuel
  induction fuel with
  | zero =>
    intro q v hv
    rw [bfsFindJoin, bfsVisit]
    exact (List.find?_eq_none.mpr (fun x hx => by simp [hv x hx])).symm
  | succ fuel ih =>
    intro q v hv
    cases q with
    | nil =>
      rw [bfsFindJoin, bfsVisit]
      exact (List.find?_eq_none.mpr (fun x hx => by simp [hv x hx])).symm
    | cons nid queue =>
      rw [bfsFindJoin, bfsVisit]
      by_cases hmem : nid ∈ v
      · rw [if_pos hmem, if_pos (Or.inl hmem : nid ∈ v ∨ nid ∈ ([] : List String))]
        exact ih queue v hv
      · rw [if_neg hmem, if_neg (by simp [hmem] : ¬ (nid ∈ v ∨ nid ∈ ([] : List String)))]
        by_cases hpred : pred nid = true
        · rw [if_pos hpred]
          obtain ⟨w, hw⟩ := bfsVisit_prefix edges [] fuel
            (queue ++ (outgoingOf edges nid).map Prod.fst) (v ++ [nid])
          rw [hw, List.append_assoc, List.find?_append,
            List.find?_eq_none.mpr (fun x hx => by simp [hv x hx]), Option.none_or,
            List.singleton_append, List.find?_cons_of_pos _ hpred]
        · rw [if_neg hpred]
          apply ih
          intro a ha
          rcases List.mem_append.mp ha with h | h
          · exact hv a h
          · have haeq : a = nid := by simpa using h
            subst haeq
            rcases Bool.eq_false_or_eq_true (pred a) with h2 | h2
            · exact absurd h2 hpred
            · exact h2

theorem findMatchingJoin_eq (nodes : NodeMap) (edges : List Edge) (splitRid : String)
    (h : ¬ ((outgoingOf edges splitRid).length ≤ 1)) :
    findMatchingJoin nodes edges splitRid
      = (if ((branchSetsOf edges splitRid).headD []).filter
            (fun x => (branchSetsOf edges splitRid).all (fun s => decide (x ∈ s))) = []
         then none
         else bfsFindJoin edges (joinPred nodes edges (branchSetsOf edges splitRid))
            ((outgoingOf edges splitRid).length + edges.length + 1)
            ((outgoingOf edges splitRid).map Prod.fst) []) := by
  simp only [findMatchingJoin, branchSetsOf]
  rw [if_neg h]

theorem joinPred_iff (nodes : NodeMap) (edges : List Edge) (splitRid nid : String) :
    joinPred nodes edges (branchSetsOf edges splitRid) nid = true
      ↔ JoinCandidate nodes edges splitRid true nid := by
  unfold joinPred JoinCandidate branchSetsOf isJoinRid
  rw [Bool.and_eq_true, Bool.and_eq_true]
  constructor
  · rintro ⟨⟨hall, hjoin⟩, hmatch⟩
    refine ⟨?_, of_decide_eq_true hjoin, ?_⟩
    · intro t ht
      rcases List.mem_map.mp ht with ⟨tc, htc, rfl⟩
      have hmem := List.all_eq_true.mp hall _ (List.mem_map.mpr ⟨tc, htc, rfl⟩)
      exact (branchSet_mem edges splitRid tc.1 nid).mp (of_decide_eq_true hmem)
    · intro _
      cases hnd : nodes.lookup nid with
      | none =>
        rw [hnd] at hmatch
        exact absurd hmatch (by simp)
      | some nd =>
        rw [hnd] at hmatch
        exact ⟨nd, rfl, hmatch⟩
  · rintro ⟨hall, hjoin, hgw⟩
    obtain ⟨nd, hnd, hgwk⟩ := hgw rfl
    refine ⟨⟨?_, decide_eq_true hjoin⟩, ?_⟩
    · rw [List.all_eq_true]
      intro bs hbs
      rcases List.mem_map.mp hbs with ⟨tc, htc, rfl⟩
      exact decide_eq_true ((branchSet_mem edges splitRid tc.1 nid).mpr
        (hall tc.1 (List.mem_map.mpr ⟨tc, htc, rfl⟩)))
    · rw [hnd]
      exact hgwk

/-- C3 (amended): for every split node (out-degree > 1), `find_matching_join`
returns the first node in BFS order from the split's immediate branches that is
reachable from every branch (avoiding the split itself), has in-degree > 1 *and
is a gateway-kind node* (`AND`/`OR`/`XOR` — the claim's "a node of any kind is
accepted" is false), and reports `None` exactly when no such gateway-kind
candidate exists. -/
theorem c3_join_matching (nodes : NodeMap) (edges : List Edge) (splitRid : String)
    (hsplit : 1 < (outgoingOf edges splitRid).length) :
    joinSpecOk nodes edges splitRid := by
  have hnle : ¬ ((outgoingOf edges splitRid).length ≤ 1) := by omega
  have hbranches : ∃ tc0 rest, outgoingOf edges splitRid = tc0 :: rest := by
    cases hbo : outgoingOf edges splitRid with
    | nil => rw [hbo] at hsplit; simp at hsplit
    | cons a l => exact ⟨a, l, rfl⟩
  obtain ⟨tc0, rest, hbo⟩ := hbranches
  have htc0 : tc0.1 ∈ (outgoingOf edges splitRid).map Prod.fst := by
    rw [hbo]
    exact List.mem_map.mpr ⟨tc0, List.mem_cons_self _ _, rfl⟩
  constructor
  · intro j hj
    rw [findMatchingJoin_eq nodes edges splitRid hnle] at hj
    by_cases hfe : ((branchSetsOf edges splitRid).headD []).filter
        (fun x => (branchSetsOf edges splitRid).all (fun s => decide (x ∈ s))) = []
    · rw [if_pos hfe] at hj
      exact absurd hj (by simp)
    · rw [if_neg hfe,
        bfsFindJoin_eq_find edges _ _ _ [] (by intro a ha; simp at ha)] at hj
      have hj2 : (bfsOrderFrom edges splitRid).find?
          (joinPred nodes edges (branchSetsOf edges splitRid)) = some j := hj
      rw [List.find?_eq_some] at hj2
      obtain ⟨hpj, pre, suf, hordeq, hpre⟩ := hj2
      refine ⟨(joinPred_iff nodes edges splitRid j).mp hpj, pre, suf, hordeq, ?_⟩
      intro y hy hyc
      have h2 := hpre y hy
      rw [(joinPred_iff nodes edges splitRid y).mpr hyc] at h2
      simp at h2
  · intro hnone x hx
    rw [findMatchingJoin_eq nodes edges splitRid hnle] at hnone
    by_cases hfe : ((branchSetsOf edges splitRid).headD []).filter
        (fun x => (branchSetsOf edges splitRid).all (fun s => decide (x ∈ s))) = []
    · have hx0 : x ∈ bfsVisit edges [splitRid] (edges.length + 2) [tc0.1] [] :=
        (branchSet_mem edges splitRid tc0.1 x).mpr (hx.1 tc0.1 htc0)
      have hhead : (branchSetsOf edges splitRid).headD []
          = bfsVisit edges [splitRid] (edges.length + 2) [tc0.1] [] := by
        unfold branchSetsOf
        rw [hbo]
        rfl
      have hxf : x ∈ ((branchSetsOf edges splitRid).headD []).filter
          (fun x => (branchSetsOf edges splitRid).all (fun s => decide (x ∈ s))) := by
        rw [List.mem_filter]
        refine ⟨hhead ▸ hx0, ?_⟩
        rw [List.all_eq_true]
        intro bs hbs
        rcases List.mem_map.mp hbs with ⟨tc, htc, rfl⟩
        exact decide_eq_true ((branchSet_mem edges splitRid tc.1 x).mpr
          (hx.1 tc.1 (List.mem_map.mpr ⟨tc, htc, rfl⟩)))
      rw [hfe] at hxf
      simp at hxf
    · rw [if_neg hfe,
        bfsFindJoin_eq_find edges _ _ _ [] (by intro a ha; simp at ha)] at hnone
      have hxp : joinPred nodes edges (branchSetsOf edges splitRid) x = true :=
        (joinPred_iff nodes edges splitRid x).mpr hx
      have hreach : AvoidReach edges [] tc0.1 x := by
        have h1 := hx.1 tc0.1 htc0
        exact ⟨by simp, Relation.ReflTransGen.mono
          (fun a b hab => ⟨hab.1, by simp, by simp⟩) h1.2⟩
      have hxmem : x ∈ bfsOrderFrom edges splitRid := by
        unfold bfsOrderFrom
        exact bfsVisit_complete edges [] _ _
          (by rw [List.length_map]; omega) tc0.1 htc0 x hreach
      exact List.find?_eq_none.mp hnone x hxmem hxp

theorem c3_join_matching_witness :
    1 < (outgoingOf c3wEdges "ng").length ∧ joinSpecOk c3wNodes c3wEdges "ng" :=
  ⟨by decide, c3_join_matching c3wNodes c3wEdges "ng" (by decide)⟩

theorem c3_counterexample :
    findMatchingJoin c3Nodes c3Edges "s" = none ∧
    1 < (outgoingOf c3Edges "s").length ∧
    JoinCandidate c3Nodes c3Edges "s" false "m" := by
  refine ⟨by decide, by decide, ?_, by decide, ?_⟩
  · intro t ht
    have ht2 : t ∈ (["na", "nb"] : List String) := ht
    rcases List.mem_cons.mp ht2 with rfl | ht3
    · exact ⟨by decide, Relation.ReflTransGen.single
        ⟨(by decide : ("m" : String) ∈ (outgoingOf c3Edges "na").map Prod.fst),
         by decide, by decide⟩⟩
    · have hteq : t = "nb" := by simpa using ht3
      subst hteq
      exact ⟨by decide, Relation.ReflTransGen.single
        ⟨(by decide : ("m" : String) ∈ (outgoingOf c3Edges "nb").map Prod.fst),
         by decide, by decide⟩⟩
  · intro h
    exact Bool.noConfusion h

/-- C10 (amended): an edge endpoint naming a missing node contributes no
predecessor, successor, gateway-branch, or `incoming_from` entry in either
extractor (every resolver returns `none`, so the edge is skipped, never an
error); in path enumeration, however, the edge is *not* ignored: the DFS follows
it, finds no node, and returns the current path unchanged — terminating the
traversal there and emitting the truncated path. -/
theorem c10_dangling_edges (nodes : NodeMap) (edges : List Edge)
    (r2i : List (String × String)) (rid : String) (hmiss : nodes.lookup rid = none) :
    predecessorRef nodes r2i rid = none ∧
    successorRef nodes r2i rid = none ∧
    gbBranchRef nodes r2i rid = none ∧
    ewBranchRef nodes r2i rid = none ∧
    incomingFromRef nodes r2i rid = none ∧
    ∀ fuel path vc stopAt, dfs nodes edges r2i fuel rid path vc stopAt = [path] := by
  refine ⟨by simp [predecessorRef, hmiss], by simp [successorRef, hmiss],
    by simp [gbBranchRef, hmiss], by simp [ewBranchRef, hmiss],
    by simp [incomingFromRef, hmiss], ?_⟩
  intro fuel path vc stopAt
  cases fuel with
  | zero => rw [dfs]
  | succ fuel =>
    rw [dfs]
    by_cases h1 : rid ∈ stopAt
    · rw [if_pos h1]
    · rw [if_neg h1]
      by_cases h2 : MAX_LOOP_ITERATIONS ≤ vc rid
      · rw [if_pos h2]
      · rw [if_neg h2, hmiss]

theorem c10_dangling_edges_witness :
    c10Nodes.lookup "nx" = none ∧
    (predecessorRef c10Nodes (buildRidToId c10Nodes) "nx" = none ∧
     successorRef c10Nodes (buildRidToId c10Nodes) "nx" = none ∧
     gbBranchRef c10Nodes (buildRidToId c10Nodes) "nx" = none ∧
     ewBranchRef c10Nodes (buildRidToId c10Nodes) "nx" = none ∧
     incomingFromRef c10Nodes (buildRidToId c10Nodes) "nx" = none ∧
     ∀ fuel path vc stopAt,
       dfs c10Nodes c10Edges (buildRidToId c10Nodes) fuel "nx" path vc stopAt = [path]) :=
  ⟨by decide,
   c10_dangling_edges c10Nodes c10Edges (buildRidToId c10Nodes) "nx" (by decide)⟩

/-! ### C8, C9 -/

set_option maxHeartbeats 4000000 in
/-- C8: on the canonical record shape with one parallel split of two
single-action branches `A`, `B` reconverging at a parallel join followed by a
continuation `C`, `enumerate_paths` yields exactly the two orderings of `A`, `B`
before the continuation. -/
theorem c8_parallel_split (A B C : String) (h : A ≠ B) :
    enumeratePaths c8Nodes c8Edges [("na", A), ("nb", B), ("nc", C)] ["ns"]
      = [[A, B, C], [B, A, C]] := by
  have h1 : enumeratePaths c8Nodes c8Edges [("na", A), ("nb", B), ("nc", C)] ["ns"]
      = dedupPaths [[A, B, C], [B, A, C]] := rfl
  rw [h1]
  simp [dedupPaths, firstDedup, firstDedupAux, Ne.symm h]

theorem c8_parallel_split_witness :
    ("a" : String) ≠ "b" ∧
    enumeratePaths c8Nodes c8Edges [("na", "a"), ("nb", "b"), ("nc", "c")] ["ns"]
      = [["a", "b", "c"], ["b", "a", "c"]] :=
  ⟨by decide, c8_parallel_split "a" "b" "c" (by decide)⟩

set_option maxHeartbeats 4000000 in
/-- C9: on the canonical record shape with one inclusive split of two
single-action branches `A`, `B`, `enumerate_paths` yields one path per non-empty
subset — `{A}`, `{B}`, `{A, B}` — with the two-branch path in branch order, not
permuted. -/
theorem c9_inclusive_split (A B : String) (h : A ≠ B) :
    enumeratePaths c9Nodes c9Edges [("na", A), ("nb", B)] ["ns"] = [[A], [B], [A, B]] := by
  have h1 : enumeratePaths c9Nodes c9Edges [("na", A), ("nb", B)] ["ns"]
      = dedupPaths [[A], [B], [A, B]] := rfl
  rw [h1]
  simp [dedupPaths, firstDedup, firstDedupAux, Ne.symm h]

theorem c9_inclusive_split_witness :
    ("a" : String) ≠ "b" ∧
    enumeratePaths c9Nodes c9Edges [("na", "a"), ("nb", "b")] ["ns"]
      = [["a"], ["b"], ["a", "b"]] :=
  ⟨by decide, c9_inclusive_split "a" "b" (by decide)⟩

/-! ### C2 (amended theorem) -/

theorem vcBump_le (vc : String → Nat) (r rid : String) : vc rid ≤ vcBump vc r rid := by
  unfold vcBump
  by_cases h : rid = r
  · subst h; simp
  · simp [h]

theorem vcBump_self (vc : String → Nat) (r : String) : vcBump vc r r = vc r + 1 := by
  unfold vcBump; simp

theorem vcBump_other (vc : String → Nat) (r rid : String) (h : rid ≠ r) :
    vcBump vc r rid = vc rid := by
  unfold vcBump; simp [h]

theorem dfs_count_le (nodes : NodeMap) (edges : List Edge) (r2i : List (String × String))
    (hkinds : ∀ p ∈ nodes, p.2.type ≠ NType.AND ∧ p.2.type ≠ NType.OR)
    (hinj : ∀ r s, (nodes.lookup r).isSome → (nodes.lookup s).isSome →
      ridId r2i r = ridId r2i s → r = s) :
    ∀ fuel current path vc stopAt, ∀ out ∈ dfs nodes edges r2i fuel current path vc stopAt,
      ∀ rid, (nodes.lookup rid).isSome →
        out.count (ridId r2i rid) ≤ path.count (ridId r2i rid)
          + (MAX_LOOP_ITERATIONS - vc rid) := by
  intro fuel
  induction fuel with
  | zero =>
    intro current path vc stopAt out hout rid _
    simp only [dfs, List.mem_singleton] at hout
    subst hout
    exact Nat.le_add_right _ _
  | succ fuel ih =>
    intro current path vc stopAt out hout rid hrid
    rw [dfs] at hout
    by_cases hstop : current ∈ stopAt
    · rw [if_pos hstop] at hout
      simp only [List.mem_singleton] at hout
      subst hout
      exact Nat.le_add_right _ _
    rw [if_neg hstop] at hout
    by_cases hguard : MAX_LOOP_ITERATIONS ≤ vc current
    · rw [if_pos hguard] at hout
      simp only [List.mem_singleton] at hout
      subst hout
      exact Nat.le_add_right _ _
    rw [if_neg hguard] at hout
    cases hnd : nodes.lookup current with
    | none =>
      rw [hnd] at hout
      simp only [List.mem_singleton] at hout
      subst hout
      exact Nat.le_add_right _ _
    | some nd =>
      rw [hnd] at hout
      have hcur : (nodes.lookup current).isSome := by rw [hnd]; rfl
      have hmemnd := lookup_some_mem hnd
      -- bound for the "append current's id, then recurse" shape
      have happend : ∀ out',
          out' ∈ (outgoingOf edges current).flatMap
            (fun tc => dfs nodes edges r2i fuel tc.1 (path ++ [ridId r2i current])
              (vcBump vc current) stopAt) →
          out'.count (ridId r2i rid) ≤ path.count (ridId r2i rid)
            + (MAX_LOOP_ITERATIONS - vc rid) := by
        intro out' hout'
        obtain ⟨tc, _, hmem⟩ := List.mem_flatMap.mp hout'
        have hb := ih tc.1 _ (vcBump vc current) stopAt out' hmem rid hrid
        rw [List.count_append] at hb
        by_cases heq : ridId r2i rid = ridId r2i current
        · have : rid = current := hinj rid current hrid hcur heq
          subst this
          rw [vcBump_self] at hb
          rw [← heq] at hb
          have hone : List.count (ridId r2i rid) [ridId r2i rid] = 1 := by simp
          rw [hone] at hb
          have hg2 : ¬ (2 ≤ vc rid) := hguard
          have hb2 : out'.count (ridId r2i rid)
              ≤ path.count (ridId r2i rid) + 1 + (2 - (vc rid + 1)) := hb
          show out'.count (ridId r2i rid) ≤ path.count (ridId r2i rid) + (2 - vc rid)
          omega
        · have hne : rid ≠ current := fun h => heq (h ▸ rfl)
          rw [vcBump_other vc current rid hne] at hb
          have hz : List.count (ridId r2i rid) [ridId r2i current] = 0 := by
            rw [List.count_eq_zero]
            intro hmem1
            exact heq (List.mem_singleton.mp hmem1)
          omega
      -- bound for the terminal "append current's id" shape
      have hterm : ∀ a, a = ridId r2i current →
          (path ++ [a]).count (ridId r2i rid) ≤ path.count (ridId r2i rid)
            + (MAX_LOOP_ITERATIONS - vc rid) := by
        intro a ha
        subst ha
        rw [List.count_append]
        by_cases heq : ridId r2i rid = ridId r2i current
        · have : rid = current := hinj rid current hrid hcur heq
          subst this
          rw [← heq]
          have hone : List.count (ridId r2i rid) [ridId r2i rid] = 1 := by simp
          rw [hone]
          have hg2 : ¬ (2 ≤ vc rid) := hguard
          show path.count (ridId r2i rid) + 1 ≤ path.count (ridId r2i rid) + (2 - vc rid)
          omega
        · have hz : List.count (ridId r2i rid) [ridId r2i current] = 0 := by
            rw [List.count_eq_zero]
            intro hmem1
            exact heq (List.mem_singleton.mp hmem1)
          omega
      -- bound for the pass-through shape
      have hpass : ∀ out',
          out' ∈ (outgoingOf edges current).flatMap
            (fun tc => dfs nodes edges r2i fuel tc.1 path (vcBump vc current) stopAt) →
          out'.count (ridId r2i rid) ≤ path.count (ridId r2i rid)
            + (MAX_LOOP_ITERATIONS - vc rid) := by
        intro out' hout'
        obtain ⟨tc, _, hmem⟩ := List.mem_flatMap.mp hout'
        have hb := ih tc.1 path (vcBump vc current) stopAt out' hmem rid hrid
        have := vcBump_le vc current rid
        omega
      obtain ⟨ty, tx, ag⟩ := nd
      have hAND : ty ≠ NType.AND := by
        have := hkinds _ hmemnd
        simpa using this.1
      have hOR : ty ≠ NType.OR := by
        have := hkinds _ hmemnd
        simpa using this.2
      cases ty with
      | AND => exact absurd rfl hAND
      | OR => exact absurd rfl hOR
      | XOR =>
        dsimp only at hout
        exact hpass out hout
      | EndNode =>
        dsimp only at hout
        cases hlook : r2i.lookup current with
        | none =>
          rw [hlook] at hout
          simp only [List.mem_singleton] at hout
          subst hout
          exact Nat.le_add_right _ _
        | some a =>
          rw [hlook] at hout
          simp only [List.mem_singleton] at hout
          subst hout
          exact hterm a (by rw [ridId, hlook]; rfl)
      | Activity =>
        dsimp only at hout
        by_cases hemp : (outgoingOf edges current).isEmpty
        · rw [if_pos hemp] at hout
          simp only [List.mem_singleton] at hout
          subst hout
          exact hterm _ rfl
        · rw [if_neg hemp] at hout
          exact happend out hout
      | StartNode =>
        dsimp only at hout
        by_cases hsome : (r2i.lookup current).isSome
        · rw [if_pos hsome] at hout
          by_cases hemp : (outgoingOf edges current).isEmpty
          · rw [if_pos hemp] at hout
            simp only [List.mem_singleton] at hout
            subst hout
            exact hterm _ rfl
          · rw [if_neg hemp] at hout
            exact happend out hout
        · rw [if_neg hsome] at hout
          exact hpass out hout

/-- C2 (amended): in records whose nodes have no parallel/inclusive gateway kind,
and with pairwise-distinct action ids, no node's action id occurs more than
`MAX_LOOP_ITERATIONS` times in any enumerated path.  (With parallel/inclusive
splits the per-branch visit counts are independent copies and branch sub-paths
are concatenated, so the global bound fails — see the counterexample.) -/
theorem c2_loop_bound (nodes : NodeMap) (edges : List Edge) (r2i : List (String × String))
    (startRids : List String)
    (hkinds : ∀ p ∈ nodes, p.2.type ≠ NType.AND ∧ p.2.type ≠ NType.OR)
    (hinj : ∀ r ∈ nodes.map Prod.fst, ∀ s ∈ nodes.map Prod.fst,
      ridId r2i r = ridId r2i s → r = s) :
    ∀ path ∈ enumeratePaths nodes edges r2i startRids, ∀ rid, (nodes.lookup rid).isSome →
      path.count (ridId r2i rid) ≤ MAX_LOOP_ITERATIONS := by
  intro path hpath rid hrid
  have hinj2 : ∀ r s, (nodes.lookup r).isSome → (nodes.lookup s).isSome →
      ridId r2i r = ridId r2i s → r = s := fun r s hr hs =>
    hinj r (lookup_isSome_mem_keys hr) s (lookup_isSome_mem_keys hs)
  have hraw : path ∈ rawPaths nodes edges r2i startRids (dfsFuel nodes edges startRids) :=
    (mem_firstDedup _ path).mp hpath
  obtain ⟨s, _, hmem⟩ := List.mem_flatMap.mp hraw
  have hb := dfs_count_le nodes edges r2i hkinds hinj2 _ s [] (fun _ => 0) [] path hmem rid hrid
  simpa using hb

theorem c2_loop_bound_witness :
    (∀ p ∈ c2wNodes, p.2.type ≠ NType.AND ∧ p.2.type ≠ NType.OR) ∧
    (∀ r ∈ c2wNodes.map Prod.fst, ∀ s ∈ c2wNodes.map Prod.fst,
      ridId (buildRidToId c2wNodes) r = ridId (buildRidToId c2wNodes) s → r = s) ∧
    ∀ path ∈ enumeratePaths c2wNodes c2wEdges (buildRidToId c2wNodes) ["ns"],
      ∀ rid, (c2wNodes.lookup rid).isSome →
        path.count (ridId (buildRidToId c2wNodes) rid) ≤ MAX_LOOP_ITERATIONS :=
  ⟨by decide, by decide,
   c2_loop_bound c2wNodes c2wEdges (buildRidToId c2wNodes) ["ns"] (by decide) (by decide)⟩

end Workflow
